import Mathlib

set_option maxHeartbeats 1000000

/-!
Verification of the modmesh call-profiler core (the radix-tree call-path
tracking engine) against its natural-language specification.

The engine lives in the C++ header `modmesh/toggle/RadixTree.hpp`, which is not
among the provided source files; only its test suite
(`gtests/test_nopython_callprofiler.cpp`) is.  Every definition below that
embeds engine behaviour is therefore modelled from the specification text and
carries a doc comment saying so.

Representation: the call-path tree is embedded flatly.  Every non-root node is
identified by its call path, stored as a list of identities with the innermost
identity first (the root is the empty path and is not stored).  The node list
keeps creation order, so the children of a node appear in insertion order,
which is what positional `get_child` uses.  Durations are natural numbers
(milliseconds in the concrete scenarios).
-/

/-- Modelled from the spec: the aggregated timing record of one node
(`CallerProfile`, spec section 3); `RadixTree.hpp` is missing from `src/`. -/
structure CallerProfile where
  caller_name : String
  call_count : Nat
  total_time : Nat
deriving DecidableEq

/-- Modelled from the spec: one non-root node of the call-path tree
(`CallNode`, spec section 3), identified by its call path (innermost identity
first); `id` is the sequential creation id. -/
structure CallNode where
  path : List String
  id : Nat
  data : CallerProfile
deriving DecidableEq

/-- Modelled from the spec: the call-path tree (`CallPathTree` / `RadixTree`,
spec section 3): the non-root nodes in creation order, the cursor (`[]` means
root), and the next sequential node id. -/
structure RadixTree where
  nodes : List CallNode
  current_path : List String
  next_id : Nat
deriving DecidableEq

/-- Modelled from the spec: the error taxonomy of spec section 7. -/
inductive ProfilerError where
  | StackUnderflow
  | InvalidIdentity
deriving DecidableEq

/-- Nodes stored at call path `p` (zero or one of them in well-formed trees). -/
def nodesAt (ns : List CallNode) (p : List String) : List CallNode :=
  ns.filter (fun e => decide (e.path = p))

/-- Children of the node at call path `p`: stored nodes whose path extends `p`
by exactly one identity, in insertion order. -/
def childrenOfNodes (ns : List CallNode) (p : List String) : List CallNode :=
  ns.filter (fun e => decide (e.path ≠ [] ∧ e.path.tail = p))

def RadixTree.hasNodeAt (t : RadixTree) (p : List String) : Bool :=
  !(nodesAt t.nodes p).isEmpty

def RadixTree.hasChildrenAt (t : RadixTree) (p : List String) : Bool :=
  !(childrenOfNodes t.nodes p).isEmpty

/-- Modelled from the spec: `enter(identity)` (spec section 4.1): rejects the
empty identity immediately (`InvalidIdentity`, section 7); otherwise finds or
lazily creates the cursor child named `identity` (fresh sequential id, zeroed
profile, linked last) and advances the cursor to it. -/
def RadixTree.enter (t : RadixTree) (identity : String) : Except ProfilerError RadixTree :=
  if identity = "" then .error .InvalidIdentity
  else if t.hasNodeAt (identity :: t.current_path) then
    .ok { t with current_path := identity :: t.current_path }
  else
    .ok { nodes := t.nodes ++ [⟨identity :: t.current_path, t.next_id, ⟨identity, 0, 0⟩⟩],
          current_path := identity :: t.current_path,
          next_id := t.next_id + 1 }

/-- Commit of one completed invocation into a profile record. -/
def commitProfile (elapsed : Nat) (d : CallerProfile) : CallerProfile :=
  ⟨d.caller_name, d.call_count + 1, d.total_time + elapsed⟩

/-- Commit `elapsed` into the node stored at path `p` (all other nodes kept). -/
def updateNodes (ns : List CallNode) (p : List String) (elapsed : Nat) : List CallNode :=
  ns.map (fun e => if e.path = p then ⟨e.path, e.id, commitProfile elapsed e.data⟩ else e)

/-- Modelled from the spec: `exit(elapsed)` (spec section 4.1): requires the
cursor to differ from root, else `StackUnderflow`; commits
`call_count += 1, total_time += elapsed` on the cursor node, then moves the
cursor to its parent. -/
def RadixTree.exit (t : RadixTree) (elapsed : Nat) : Except ProfilerError RadixTree :=
  match t.current_path with
  | [] => .error .StackUnderflow
  | _ :: parent =>
    .ok ⟨updateNodes t.nodes t.current_path elapsed, parent, t.next_id⟩

/-- Modelled from the spec: `rollback_one()` (spec section 4.1): requires the
cursor to differ from root; if the cursor node currently has no children it is
detached from its parent and freed, and in both cases the cursor moves to the
parent. -/
def RadixTree.rollback_one (t : RadixTree) : Except ProfilerError RadixTree :=
  match t.current_path with
  | [] => .error .StackUnderflow
  | _ :: parent =>
    if t.hasChildrenAt t.current_path then
      .ok ⟨t.nodes, parent, t.next_id⟩
    else
      .ok ⟨t.nodes.filter (fun e => decide (e.path ≠ t.current_path)), parent, t.next_id⟩

/-- Lookup key accepted by `get_child`: insertion-order index or identity. -/
inductive ChildKey where
  | index (k : Nat)
  | name (identity : String)

/-- Modelled from the spec: `get_child(key)` (spec section 4.1): resolves a
child of the node at path `p` either by insertion-order index or by identity
string, returning `none` rather than failing; a pure observer. -/
def RadixTree.get_child (t : RadixTree) (p : List String) (key : ChildKey) : Option CallNode :=
  match key with
  | .index k => (childrenOfNodes t.nodes p).get? k
  | .name i => t.nodes.find? (fun e => decide (e.path = i :: p))

/-- Modelled from the spec: `live_node_count()` is the number of non-root
nodes currently in the tree. -/
def RadixTree.live_node_count (t : RadixTree) : Nat := t.nodes.length

def RadixTree.init : RadixTree := ⟨[], [], 0⟩

/-- Modelled from the spec: the orchestrator (`CallProfiler`, spec section
4.2): one tree plus the `cancelling` flag.  The process-wide singleton reached
through `CallProfiler::instance()` is embedded as a single state value
threaded through all operations. -/
structure CallProfiler where
  m_radix_tree : RadixTree
  cancelling : Bool
deriving DecidableEq

def CallProfiler.init : CallProfiler := ⟨RadixTree.init, false⟩

/-- Modelled from the spec: `reset()` discards the whole tree (fresh root,
cursor at root) and clears `cancelling`. -/
def CallProfiler.reset (_ : CallProfiler) : CallProfiler := CallProfiler.init

/-- Modelled from the spec: `cancel()` sets `cancelling`; idempotent, callable
at any nesting depth. -/
def CallProfiler.cancel (c : CallProfiler) : CallProfiler := ⟨c.m_radix_tree, true⟩

/-- Modelled from the spec: profiler `enter(identity)` delegates to the tree. -/
def CallProfiler.enter (c : CallProfiler) (identity : String) : Except ProfilerError CallProfiler :=
  (c.m_radix_tree.enter identity).map (fun t => ⟨t, c.cancelling⟩)

/-- Modelled from the spec: `leave(elapsed)` (spec section 4.2): while
`cancelling`, perform `rollback_one()` instead of committing, discarding
`elapsed`, and clear the flag exactly when the cursor returns to root;
otherwise commit through `exit(elapsed)`. -/
def CallProfiler.leave (c : CallProfiler) (elapsed : Nat) : Except ProfilerError CallProfiler :=
  if c.cancelling then
    (c.m_radix_tree.rollback_one).map (fun t => ⟨t, decide (t.current_path ≠ [])⟩)
  else
    (c.m_radix_tree.exit elapsed).map (fun t => ⟨t, false⟩)

/-- Atomic operations of the orchestrator, as driven by the scope guards and
the control surface. -/
inductive ProfilerOp where
  | enter (identity : String)
  | leave (elapsed : Nat)
  | cancel
  | reset
deriving DecidableEq

def CallProfiler.step (c : CallProfiler) : ProfilerOp → Except ProfilerError CallProfiler
  | .enter i => c.enter i
  | .leave e => c.leave e
  | .cancel => .ok c.cancel
  | .reset => .ok c.reset

/-- Run a sequence of profiler operations; a structural fault aborts the run. -/
def runOps (c : CallProfiler) : List ProfilerOp → Except ProfilerError CallProfiler
  | [] => .ok c
  | op :: ops =>
    match c.step op with
    | .ok c' => runOps c' ops
    | .error err => .error err

/-- Sum of the inclusive times of the children of the node at path `p`. -/
def childrenSum (ns : List CallNode) (p : List String) : Nat :=
  ((childrenOfNodes ns p).map (fun e => e.data.total_time)).sum

/-- Self (exclusive) time of one node as computed by `print_statistics` step 1:
total time minus the children's total times. -/
def nodeSelfTime (ns : List CallNode) (e : CallNode) : Int :=
  (e.data.total_time : Int) - (childrenSum ns e.path : Int)

/-- Nodes of the whole tree carrying a given identity (any call path). -/
def nodesNamed (ns : List CallNode) (name : String) : List CallNode :=
  ns.filter (fun e => decide (e.data.caller_name = name))

/-- Modelled from the spec: `print_statistics` step 2, call-count aggregation
across the whole tree by identity. -/
def aggCallCount (t : RadixTree) (name : String) : Nat :=
  ((nodesNamed t.nodes name).map (fun e => e.data.call_count)).sum

/-- Modelled from the spec: `print_statistics` step 2, total-time aggregation
across the whole tree by identity. -/
def aggTotalTime (t : RadixTree) (name : String) : Nat :=
  ((nodesNamed t.nodes name).map (fun e => e.data.total_time)).sum

/-- Modelled from the spec: `print_statistics` step 2, self-time aggregation
across the whole tree by identity. -/
def aggSelfTime (t : RadixTree) (name : String) : Int :=
  ((nodesNamed t.nodes name).map (fun e => nodeSelfTime t.nodes e)).sum

/-- Total call count of the summary line: sum of all aggregated call counts. -/
def statsTotalCallCount (t : RadixTree) : Nat :=
  (t.nodes.map (fun e => e.data.call_count)).sum

/-- Total self time (milliseconds) of the summary line: sum of all aggregated
self times. -/
def statsTotalSelfTime (t : RadixTree) : Int :=
  (t.nodes.map (fun e => nodeSelfTime t.nodes e)).sum

/-- Three-digit rendering of a millisecond remainder. -/
def fracMilli (n : Nat) : String :=
  if n < 10 then "00" ++ toString n
  else if n < 100 then "0" ++ toString n
  else toString n

/-- Modelled from the spec: the first output line of `print_statistics`,
"N function calls in S seconds".  The C++ code streams the seconds as a
double; durations that are whole milliseconds render as below. -/
def statsFirstLine (t : RadixTree) : String :=
  toString (statsTotalCallCount t) ++ " function calls in " ++
    toString ((statsTotalSelfTime t).toNat / 1000) ++ "." ++
    fracMilli ((statsTotalSelfTime t).toNat % 1000) ++ " seconds"

/-- Modelled from the spec: one timed scope-guard event (spec section 4.3).
Guard construction performs `enter` at monotonic timestamp `t`; guard
finalization performs `leave` at timestamp `t`, the elapsed duration being
`t` minus the recorded start. -/
inductive TimedEvent where
  | enter (identity : String) (t : Nat)
  | leave (t : Nat)
deriving DecidableEq

def TimedEvent.time : TimedEvent → Nat
  | .enter _ t => t
  | .leave t => t

/-- Tree state paired with the stack of start timestamps held by the active
scope guards (innermost first, aligned with the cursor path). -/
structure TimedState where
  tree : RadixTree
  starts : List Nat
deriving DecidableEq

/-- Modelled from the spec: effect of one scope-guard event on the tree (no
cancellation in play): entry records the start timestamp, finalization commits
`now - start`. -/
def timedStep (s : TimedState) : TimedEvent → Except ProfilerError TimedState
  | .enter i t => (s.tree.enter i).map (fun tr => ⟨tr, t :: s.starts⟩)
  | .leave t =>
    match s.starts with
    | [] => .error .StackUnderflow
    | start :: rest => (s.tree.exit (t - start)).map (fun tr => ⟨tr, rest⟩)

def runTimed (s : TimedState) : List TimedEvent → Except ProfilerError TimedState
  | [] => .ok s
  | ev :: evs =>
    match timedStep s ev with
    | .ok s' => runTimed s' evs
    | .error err => .error err

/-- Timestamps of an event list are nondecreasing and bounded below by `t0`. -/
def timesMonoB : Nat → List TimedEvent → Bool
  | _, [] => true
  | t0, ev :: evs => decide (t0 ≤ ev.time) && timesMonoB ev.time evs

def pathsOf (ns : List CallNode) : List (List String) := ns.map (fun e => e.path)

/-- Sibling-compression invariant: no two stored nodes share a call path, so
children of one node have pairwise-distinct identities. -/
def SiblingsDistinct (ns : List CallNode) : Prop := (pathsOf ns).Nodup

def PathsNonempty (ns : List CallNode) : Prop := ∀ e ∈ ns, e.path ≠ []

instance (ns : List CallNode) : Decidable (PathsNonempty ns) :=
  decidable_of_iff (∀ e ∈ ns, e.path ≠ []) Iff.rfl

/-- Every stored node's parent is stored too (or is the root). -/
def ParentClosed (ns : List CallNode) : Prop :=
  ∀ e ∈ ns, e.path.tail = [] ∨ ∃ e' ∈ ns, e'.path = e.path.tail

/-- Every node on the active call path is stored. -/
def ActivePresent (t : RadixTree) : Prop :=
  ∀ k < t.current_path.length, ∃ e ∈ t.nodes, e.path = t.current_path.drop k

/-- Structural well-formedness of reachable trees. -/
def TreeWF (t : RadixTree) : Prop :=
  SiblingsDistinct t.nodes ∧ PathsNonempty t.nodes ∧ ParentClosed t.nodes ∧ ActivePresent t

/-- Paths lying on the active call path: nonempty suffixes of the cursor. -/
def IsActiveSuffix (q cur : List String) : Prop := q ≠ [] ∧ ∃ k, q = cur.drop k

/-- Timing invariant along the active call path: with `tNext` the start
timestamp of the next inner guard (or the current time for the innermost), the
children of each active node can have accumulated at most its committed total
plus the time its in-flight invocation has already spanned. -/
def chainInv (ns : List CallNode) : List String → List Nat → Nat → Prop
  | [], [], _ => True
  | i :: p, start :: st, tNext =>
    (∀ e ∈ ns, e.path = i :: p →
      childrenSum ns (i :: p) ≤ e.data.total_time + (tNext - start)) ∧
    start ≤ tNext ∧ chainInv ns p st start
  | _, _, _ => False

/-- Full invariant of the timed run at current time `tNow`. -/
structure TimedInv (s : TimedState) (tNow : Nat) : Prop where
  len_eq : s.starts.length = s.tree.current_path.length
  nodup : SiblingsDistinct s.tree.nodes
  nonempty_paths : PathsNonempty s.tree.nodes
  parent_closed : ParentClosed s.tree.nodes
  active_present : ActivePresent s.tree
  off_chain : ∀ e ∈ s.tree.nodes, ¬ IsActiveSuffix e.path s.tree.current_path →
    childrenSum s.tree.nodes e.path ≤ e.data.total_time
  chain : chainInv s.tree.nodes s.tree.current_path s.starts tNow

/-- Nodes freshly created by entering the identities `ids` in order starting
from cursor `cur`, ids starting at `n`. -/
def chainEntryList : List String → List String → Nat → List CallNode
  | [], _, _ => []
  | i :: rest, cur, n => ⟨i :: cur, n, ⟨i, 0, 0⟩⟩ :: chainEntryList rest (i :: cur) (n + 1)

def entersOps (ids : List String) : List ProfilerOp := ids.map ProfilerOp.enter

def leavesOps (es : List Nat) : List ProfilerOp := es.map ProfilerOp.leave

/-- An active nested chain of scopes entered over identities `ids`, with
`cancel()` issued after the first `d` of them, then one finalizing leave per
scope (the discarded elapsed values `es`). -/
def chainOps (ids : List String) (d : Nat) (es : List Nat) : List ProfilerOp :=
  entersOps (ids.take d) ++ ProfilerOp.cancel :: (entersOps (ids.drop d) ++ leavesOps es)

/-- Profiler state in the middle of a cancelled fresh chain: base nodes plus
the freshly created chain tower, cursor at the innermost chain node. -/
def towerState (base : List CallNode) (ids : List String) (n m : Nat) (flag : Bool) :
    CallProfiler :=
  ⟨⟨base ++ chainEntryList ids [] n, ids.reverse, m⟩, flag⟩

/-- Repeated completed calls to identity `i` at the cursor: one enter/leave
pair per elapsed duration in `es`. -/
def callRounds (i : String) : List Nat → List ProfilerOp
  | [] => []
  | e :: es => .enter i :: .leave e :: callRounds i es

/-- Identity unused anywhere in the stored nodes (an "other" identity). -/
def FreshIdentity (ns : List CallNode) (i : String) : Prop := ∀ e ∈ ns, i ∉ e.path

def foo1Name : String := "void modmesh::detail::foo1()"

def foo2Name : String := "void modmesh::detail::foo2()"

def foo3Name : String := "void modmesh::detail::foo3()"

/-- Scenario B of the spec, with the test's busy-wait durations taken exactly
(milliseconds): foo1 calls foo2 calls foo3 (own work 7/35/19 ms), then foo2
standalone once, then foo3 standalone twice. -/
def scenarioB : List ProfilerOp :=
  [.enter foo1Name, .enter foo2Name, .enter foo3Name, .leave 19, .leave 54, .leave 61,
   .enter foo2Name, .enter foo3Name, .leave 19, .leave 54,
   .enter foo3Name, .leave 19, .enter foo3Name, .leave 19]

/-- Operations permitted as "later activity on other identities": no `reset`,
and every entered identity is fresh for the committed base nodes. -/
def AllowedFrameOp (base : List CallNode) : ProfilerOp → Prop
  | .enter i => FreshIdentity base i
  | .leave _ => True
  | .cancel => True
  | .reset => False

instance (base : List CallNode) (i : String) : Decidable (FreshIdentity base i) :=
  decidable_of_iff (∀ e ∈ base, i ∉ e.path) Iff.rfl

instance (base : List CallNode) (op : ProfilerOp) : Decidable (AllowedFrameOp base op) :=
  match op with
  | .enter i => (inferInstance : Decidable (FreshIdentity base i))
  | .leave _ => isTrue trivial
  | .cancel => isTrue trivial
  | .reset => isFalse (fun h => h)

/-- Frame invariant relative to the committed base nodes: the base is an
untouched initial segment of the node list, and everything beyond it (stored
or on the cursor) involves only identities fresh for the base. -/
def FrameInv (base : List CallNode) (c : CallProfiler) : Prop :=
  (∃ extra, c.m_radix_tree.nodes = base ++ extra ∧
    ∀ e ∈ extra, ∀ j ∈ e.path, FreshIdentity base j) ∧
  (∀ j ∈ c.m_radix_tree.current_path, FreshIdentity base j)

theorem mem_nodesAt {ns : List CallNode} {p : List String} {e : CallNode} :
    e ∈ nodesAt ns p ↔ e ∈ ns ∧ e.path = p := by
  simp [nodesAt, List.mem_filter]

theorem nodesAt_append (ns ms : List CallNode) (p : List String) :
    nodesAt (ns ++ ms) p = nodesAt ns p ++ nodesAt ms p := by
  simp [nodesAt, List.filter_append]

theorem childrenOfNodes_append (ns ms : List CallNode) (p : List String) :
    childrenOfNodes (ns ++ ms) p = childrenOfNodes ns p ++ childrenOfNodes ms p := by
  simp [childrenOfNodes, List.filter_append]

theorem mem_childrenOfNodes {ns : List CallNode} {p : List String} {e : CallNode} :
    e ∈ childrenOfNodes ns p ↔ e ∈ ns ∧ (e.path ≠ [] ∧ e.path.tail = p) := by
  simp [childrenOfNodes, List.mem_filter]

theorem hasNodeAt_false_iff (t : RadixTree) (p : List String) :
    t.hasNodeAt p = false ↔ nodesAt t.nodes p = [] := by
  simp [RadixTree.hasNodeAt]

theorem hasNodeAt_true_iff (t : RadixTree) (p : List String) :
    t.hasNodeAt p = true ↔ nodesAt t.nodes p ≠ [] := by
  simp [RadixTree.hasNodeAt]

/-- C9: `enter()` rejects an empty identity immediately with `InvalidIdentity`
(the tree untouched), and for every non-empty identity it never fails: it finds
or lazily creates the cursor child and advances the cursor to it. -/
theorem c9_enter_validation (t : RadixTree) (i : String) (hne : i ≠ "") :
    t.enter "" = .error .InvalidIdentity ∧
    ∃ t', t.enter i = .ok t' ∧ t'.current_path = i :: t.current_path ∧
      nodesAt t'.nodes (i :: t.current_path) ≠ [] ∧
      (t.hasNodeAt (i :: t.current_path) = true → t'.nodes = t.nodes) ∧
      (t.hasNodeAt (i :: t.current_path) = false →
        t'.nodes = t.nodes ++ [⟨i :: t.current_path, t.next_id, ⟨i, 0, 0⟩⟩]) := by
  refine ⟨by simp [RadixTree.enter], ?_⟩
  by_cases h : t.hasNodeAt (i :: t.current_path) = true
  · refine ⟨⟨t.nodes, i :: t.current_path, t.next_id⟩, ?_, rfl, ?_, fun _ => rfl, ?_⟩
    · simp [RadixTree.enter, hne, h]
    · exact (hasNodeAt_true_iff t _).mp h
    · intro hf
      rw [hf] at h
      cases h
  · have hf : t.hasNodeAt (i :: t.current_path) = false := by
      cases hb : t.hasNodeAt (i :: t.current_path)
      · rfl
      · exact absurd hb h
    refine ⟨⟨t.nodes ++ [⟨i :: t.current_path, t.next_id, ⟨i, 0, 0⟩⟩],
      i :: t.current_path, t.next_id + 1⟩, ?_, rfl, ?_, fun ht => absurd ht h, fun _ => rfl⟩
    · simp [RadixTree.enter, hne, hf]
    · rw [nodesAt_append, (hasNodeAt_false_iff t _).mp hf]
      simp [nodesAt]

/-- Witness for C9 at a concrete input. -/
theorem c9_enter_validation_witness :
    RadixTree.init.enter "" = .error .InvalidIdentity :=
  (c9_enter_validation RadixTree.init "x" (by decide)).1

/-- C8: `get_child(key)` resolves a child of the node at `p` either by
insertion-order index or by identity string, returns `none` rather than failing
when no such child exists, and being a pure function of the tree it mutates no
tree state. -/
theorem c8_get_child (t : RadixTree) (p : List String) :
    (∀ k e, t.get_child p (.index k) = some e → e ∈ t.nodes ∧ e.path ≠ [] ∧ e.path.tail = p) ∧
    (∀ k (h : k < (childrenOfNodes t.nodes p).length),
      t.get_child p (.index k) = some ((childrenOfNodes t.nodes p).get ⟨k, h⟩)) ∧
    (∀ k, (childrenOfNodes t.nodes p).length ≤ k → t.get_child p (.index k) = none) ∧
    (∀ i e, t.get_child p (.name i) = some e → e ∈ t.nodes ∧ e.path = i :: p) ∧
    (∀ i, t.get_child p (.name i) = none ↔ ∀ e ∈ t.nodes, e.path ≠ i :: p) := by
  refine ⟨?_, ?_, ?_, ?_, ?_⟩
  · intro k e h
    have hm : e ∈ childrenOfNodes t.nodes p := List.get?_mem h
    exact ⟨(mem_childrenOfNodes.mp hm).1, (mem_childrenOfNodes.mp hm).2⟩
  · intro k h
    exact List.get?_eq_get h
  · intro k h
    exact List.get?_eq_none.mpr h
  · intro i e h
    refine ⟨List.mem_of_find?_eq_some h, ?_⟩
    have := List.find?_some h
    simpa using this
  · intro i
    rw [show t.get_child p (.name i) = t.nodes.find? (fun e => decide (e.path = i :: p)) from rfl]
    rw [List.find?_eq_none]
    simp

/-- Witness for C8 at a concrete input. -/
theorem c8_get_child_witness :
    RadixTree.get_child ⟨[⟨["f"], 0, ⟨"f", 1, 5⟩⟩], [], 1⟩ [] (.name "g") = none :=
  ((c8_get_child ⟨[⟨["f"], 0, ⟨"f", 1, 5⟩⟩], [], 1⟩ []).2.2.2.2 "g").mpr (by decide)

/-- C2 counterexample: `reset()` invoked in a reachable CANCELLING state clears
the `cancelling` flag, a CANCELLING-to-NORMAL transition that is not effected
by a `leave()` returning the cursor to root; so the two listed transitions are
not the only ones. -/
theorem c2_counterexample_reset_transition :
    (runOps CallProfiler.init [.enter "f", .cancel]).map (fun c => c.cancelling) = .ok true ∧
    (runOps CallProfiler.init [.enter "f", .cancel, .reset]).map (fun c => c.cancelling) =
      .ok false := ⟨rfl, rfl⟩

/-- C2 (amended): `cancel()` sets the `cancelling` flag idempotently at any
depth and touches nothing else; while the flag is set every `leave` performs
`rollback_one()` and discards its elapsed argument, clearing the flag exactly
when the cursor returns to root; the flag becomes true only through `cancel()`
(enter preserves it, a non-cancelling leave keeps it clear) and becomes false
only through the rollback `leave` that reaches root or through `reset()`. -/
theorem c2_state_machine (c : CallProfiler) (e1 e2 : Nat) (hc : c.cancelling = true) :
    (∀ d : CallProfiler, d.cancel.cancelling = true ∧ d.cancel.m_radix_tree = d.m_radix_tree ∧
      d.cancel.cancel = d.cancel) ∧
    c.leave e1 = c.leave e2 ∧
    (c.leave e1).map (fun d => d.m_radix_tree) = c.m_radix_tree.rollback_one ∧
    (∀ d, c.leave e1 = .ok d → (d.cancelling = false ↔ d.m_radix_tree.current_path = [])) ∧
    (∀ d : CallProfiler, ∀ e d', d.cancelling = false → d.leave e = .ok d' →
      d'.cancelling = false ∧ d.m_radix_tree.exit e = .ok d'.m_radix_tree) ∧
    (∀ d : CallProfiler, ∀ i d', d.enter i = .ok d' → d'.cancelling = d.cancelling) ∧
    (∀ d : CallProfiler, d.reset.cancelling = false) := by
  refine ⟨fun d => ⟨rfl, rfl, rfl⟩, ?_, ?_, ?_, ?_, ?_, fun d => rfl⟩
  · simp [CallProfiler.leave, hc]
  · cases h : c.m_radix_tree.rollback_one with
    | ok tr => simp [CallProfiler.leave, hc, h, Except.map]
    | error err => simp [CallProfiler.leave, hc, h, Except.map]
  · intro d hd
    rw [CallProfiler.leave, if_pos hc] at hd
    cases h : c.m_radix_tree.rollback_one with
    | ok tr =>
      rw [h] at hd
      cases hd
      by_cases hp : tr.current_path = []
      · simp [hp]
      · simp [hp]
    | error err =>
      rw [h] at hd
      cases hd
  · intro d e d' hdc hd
    rw [CallProfiler.leave, if_neg (by simp [hdc])] at hd
    cases h : d.m_radix_tree.exit e with
    | ok tr =>
      rw [h] at hd
      cases hd
      exact ⟨rfl, rfl⟩
    | error err =>
      rw [h] at hd
      cases hd
  · intro d i d' hd
    rw [CallProfiler.enter] at hd
    cases h : d.m_radix_tree.enter i with
    | ok tr =>
      rw [h] at hd
      cases hd
      rfl
    | error err =>
      rw [h] at hd
      cases hd

/-- Witness for C2 at a concrete cancelling state. -/
theorem c2_state_machine_witness :
    CallProfiler.leave ⟨⟨[⟨["f"], 0, ⟨"f", 0, 0⟩⟩], ["f"], 1⟩, true⟩ 3 =
      CallProfiler.leave ⟨⟨[⟨["f"], 0, ⟨"f", 0, 0⟩⟩], ["f"], 1⟩, true⟩ 7 :=
  (c2_state_machine ⟨⟨[⟨["f"], 0, ⟨"f", 0, 0⟩⟩], ["f"], 1⟩, true⟩ 3 7 rfl).2.1

/-- C5: `print_statistics` aggregates the whole tree by identity — an identity
appearing at several call paths is merged into one row with call count, total
time and self time each summed over its nodes — and the summary line reports
the sum of all aggregated call counts and the sum of all aggregated self
times; on Scenario B this yields foo1 count 1, foo2 count 2, foo3 count 4,
totals 61/108/76 ms, and the line "7 function calls in 0.153 seconds". -/
theorem c5_statistics_scenario_b :
    (runOps CallProfiler.init scenarioB).map (fun c =>
      (aggCallCount c.m_radix_tree foo1Name, aggCallCount c.m_radix_tree foo2Name,
        aggCallCount c.m_radix_tree foo3Name)) = .ok (1, 2, 4) ∧
    (runOps CallProfiler.init scenarioB).map (fun c =>
      (aggTotalTime c.m_radix_tree foo1Name, aggTotalTime c.m_radix_tree foo2Name,
        aggTotalTime c.m_radix_tree foo3Name)) = .ok (61, 108, 76) ∧
    (runOps CallProfiler.init scenarioB).map (fun c =>
      (aggSelfTime c.m_radix_tree foo1Name, aggSelfTime c.m_radix_tree foo2Name,
        aggSelfTime c.m_radix_tree foo3Name)) = .ok (7, 70, 76) ∧
    (runOps CallProfiler.init scenarioB).map (fun c =>
      statsTotalCallCount c.m_radix_tree) = .ok 7 ∧
    (runOps CallProfiler.init scenarioB).map (fun c =>
      statsTotalSelfTime c.m_radix_tree) = .ok 153 ∧
    (runOps CallProfiler.init scenarioB).map (fun c =>
      statsFirstLine c.m_radix_tree) = .ok "7 function calls in 0.153 seconds" ∧
    (runOps CallProfiler.init scenarioB).map (fun c =>
      (statsTotalCallCount c.m_radix_tree, aggCallCount c.m_radix_tree foo1Name +
        aggCallCount c.m_radix_tree foo2Name + aggCallCount c.m_radix_tree foo3Name)) =
      .ok (7, 7) ∧
    (runOps CallProfiler.init scenarioB).map (fun c =>
      (statsTotalSelfTime c.m_radix_tree, aggSelfTime c.m_radix_tree foo1Name +
        aggSelfTime c.m_radix_tree foo2Name + aggSelfTime c.m_radix_tree foo3Name)) =
      .ok (153, 153) :=
  ⟨rfl, rfl, rfl, rfl, rfl, rfl, rfl, rfl⟩

theorem pathsOf_updateNodes (ns : List CallNode) (p : List String) (el : Nat) :
    pathsOf (updateNodes ns p el) = pathsOf ns := by
  induction ns with
  | nil => rfl
  | cons e ns ih =>
    by_cases h : e.path = p
    · simpa [updateNodes, pathsOf, h] using ih
    · simpa [updateNodes, pathsOf, h] using ih

theorem mem_updateNodes_path {ns : List CallNode} {p : List String} {el : Nat} :
    ∀ e' ∈ updateNodes ns p el, ∃ e ∈ ns, e'.path = e.path := by
  intro e' h
  rw [updateNodes, List.mem_map] at h
  obtain ⟨e, he, heq⟩ := h
  refine ⟨e, he, ?_⟩
  by_cases hp : e.path = p
  · rw [← heq]; simp [hp]
  · rw [← heq]; simp [hp]

theorem mem_updateNodes_of_mem {ns : List CallNode} {p : List String} {el : Nat} :
    ∀ e ∈ ns, ∃ e' ∈ updateNodes ns p el, e'.path = e.path := by
  intro e he
  by_cases hp : e.path = p
  · refine ⟨⟨e.path, e.id, commitProfile el e.data⟩, ?_, rfl⟩
    rw [updateNodes, List.mem_map]
    exact ⟨e, he, by simp [hp]⟩
  · refine ⟨e, ?_, rfl⟩
    rw [updateNodes, List.mem_map]
    exact ⟨e, he, by simp [hp]⟩

theorem nodesAt_updateNodes_map (ns : List CallNode) (p q : List String) (el : Nat) :
    nodesAt (updateNodes ns p el) q = (nodesAt ns q).map
      (fun e => if e.path = p then ⟨e.path, e.id, commitProfile el e.data⟩ else e) := by
  rw [nodesAt, updateNodes, List.filter_map, nodesAt]
  congr 1
  apply List.filter_congr
  intro e _
  by_cases h : e.path = p <;> simp [h, Function.comp]

theorem nodesAt_updateNodes_self (ns : List CallNode) (p : List String) (el : Nat) :
    nodesAt (updateNodes ns p el) p =
      (nodesAt ns p).map (fun e => ⟨e.path, e.id, commitProfile el e.data⟩) := by
  rw [nodesAt_updateNodes_map]
  apply List.map_congr_left
  intro e he
  rw [if_pos (mem_nodesAt.mp he).2]

theorem nodesAt_updateNodes_ne (ns : List CallNode) {p q : List String} (el : Nat)
    (hne : q ≠ p) : nodesAt (updateNodes ns p el) q = nodesAt ns q := by
  rw [nodesAt_updateNodes_map]
  have : ∀ e ∈ nodesAt ns q,
      (if e.path = p then (⟨e.path, e.id, commitProfile el e.data⟩ : CallNode) else e) = e := by
    intro e he
    rw [if_neg]
    rw [(mem_nodesAt.mp he).2]
    exact hne
  rw [List.map_congr_left this]
  exact List.map_id' (nodesAt ns q)

theorem siblingsDistinct_filter {ns : List CallNode} (g : CallNode → Bool)
    (h : SiblingsDistinct ns) : SiblingsDistinct (ns.filter g) := by
  rw [SiblingsDistinct, pathsOf] at h ⊢
  exact List.Nodup.sublist ((List.filter_sublist ns).map (fun e => e.path)) h

theorem siblingsDistinct_updateNodes {ns : List CallNode} {p : List String} {el : Nat}
    (h : SiblingsDistinct ns) : SiblingsDistinct (updateNodes ns p el) := by
  rw [SiblingsDistinct, pathsOf_updateNodes]
  exact h

theorem nodesAt_length_le_one {ns : List CallNode} (h : SiblingsDistinct ns)
    (p : List String) : (nodesAt ns p).length ≤ 1 := by
  induction ns with
  | nil => simp [nodesAt]
  | cons e ns ih =>
    rw [SiblingsDistinct, pathsOf, List.map_cons, List.nodup_cons] at h
    by_cases hp : e.path = p
    · have : nodesAt ns p = [] := by
        rw [nodesAt, List.filter_eq_nil_iff]
        intro a ha
        simp only [decide_eq_true_eq]
        intro hap
        apply h.1
        rw [hp]
        exact hap ▸ List.mem_map_of_mem (fun x => x.path) ha
      have h2 : nodesAt (e :: ns) p = e :: nodesAt ns p := by
        simp [nodesAt, List.filter_cons, hp]
      rw [h2, this]
      simp
    · simpa [nodesAt, hp] using ih h.2

theorem hasChildrenAt_false_iff (t : RadixTree) (p : List String) :
    t.hasChildrenAt p = false ↔ childrenOfNodes t.nodes p = [] := by
  simp [RadixTree.hasChildrenAt]

theorem nodesAt_eq_nil_iff {ns : List CallNode} {p : List String} :
    nodesAt ns p = [] ↔ ∀ e ∈ ns, e.path ≠ p := by
  rw [nodesAt, List.filter_eq_nil_iff]
  simp

theorem childrenOfNodes_eq_nil_iff {ns : List CallNode} {p : List String} :
    childrenOfNodes ns p = [] ↔ ∀ e ∈ ns, ¬(e.path ≠ [] ∧ e.path.tail = p) := by
  rw [childrenOfNodes, List.filter_eq_nil_iff]
  simp

theorem exceptMap_ok {α β : Type} {f : α → β} {x : Except ProfilerError α} {b : β}
    (h : Except.map f x = .ok b) : ∃ a, x = .ok a ∧ b = f a := by
  cases x with
  | ok a =>
    refine ⟨a, rfl, ?_⟩
    cases h
    rfl
  | error e => cases h

theorem treeWF_init : TreeWF RadixTree.init := by
  refine ⟨by simp [SiblingsDistinct, pathsOf, RadixTree.init], ?_, ?_, ?_⟩
  · intro e he
    cases he
  · intro e he
    cases he
  · intro k hk
    simp [RadixTree.init] at hk

theorem enter_wf {t : RadixTree} {i : String} {t' : RadixTree} (hwf : TreeWF t)
    (h : t.enter i = .ok t') : TreeWF t' := by
  obtain ⟨hsd, hpn, hpc, hap⟩ := hwf
  rw [RadixTree.enter] at h
  by_cases hi : i = ""
  · rw [if_pos hi] at h
    cases h
  rw [if_neg hi] at h
  by_cases hn : t.hasNodeAt (i :: t.current_path) = true
  · rw [if_pos hn] at h
    cases h
    refine ⟨hsd, hpn, hpc, ?_⟩
    intro k hk
    match k with
    | 0 =>
      obtain ⟨e, he⟩ := List.exists_mem_of_ne_nil _ ((hasNodeAt_true_iff t _).mp hn)
      exact ⟨e, (mem_nodesAt.mp he).1, by simpa using (mem_nodesAt.mp he).2⟩
    | k + 1 =>
      simp only [List.length_cons, Nat.add_lt_add_iff_right] at hk
      obtain ⟨e, he, hp⟩ := hap k hk
      exact ⟨e, he, by simpa using hp⟩
  · have hn' : t.hasNodeAt (i :: t.current_path) = false := by
      cases hb : t.hasNodeAt (i :: t.current_path)
      · rfl
      · exact absurd hb hn
    rw [if_neg (by simp [hn'])] at h
    cases h
    have habs : ∀ e ∈ t.nodes, e.path ≠ i :: t.current_path :=
      nodesAt_eq_nil_iff.mp ((hasNodeAt_false_iff t _).mp hn')
    refine ⟨?_, ?_, ?_, ?_⟩
    · rw [SiblingsDistinct, pathsOf, List.map_append]
      rw [List.nodup_append]
      refine ⟨hsd, by simp, ?_⟩
      intro q hq
      simp only [List.map_cons, List.map_nil, List.mem_singleton]
      intro hq'
      obtain ⟨e, he, hep⟩ := List.mem_map.mp hq
      exact habs e he (by rw [hep, hq'])
    · intro e he
      rcases List.mem_append.mp he with h1 | h1
      · exact hpn e h1
      · simp only [List.mem_singleton] at h1
        subst h1
        simp
    · intro e he
      rcases List.mem_append.mp he with h1 | h1
      · rcases hpc e h1 with h2 | ⟨e', he', hp'⟩
        · exact Or.inl h2
        · exact Or.inr ⟨e', List.mem_append_left _ he', hp'⟩
      · simp only [List.mem_singleton] at h1
        subst h1
        simp only
        cases hc : t.current_path with
        | nil => exact Or.inl (by simp)
        | cons a as =>
          have : 0 < t.current_path.length := by rw [hc]; simp
          obtain ⟨e', he', hp'⟩ := hap 0 this
          refine Or.inr ⟨e', List.mem_append_left _ he', ?_⟩
          rw [hp']
          simp [hc]
    · intro k hk
      match k with
      | 0 =>
        refine ⟨⟨i :: t.current_path, t.next_id, ⟨i, 0, 0⟩⟩,
          List.mem_append_right _ (by simp), by simp⟩
      | k + 1 =>
        simp only [List.length_cons, Nat.add_lt_add_iff_right] at hk
        obtain ⟨e, he, hp⟩ := hap k hk
        exact ⟨e, List.mem_append_left _ he, by simpa using hp⟩

theorem exit_wf {t : RadixTree} {el : Nat} {t' : RadixTree} (hwf : TreeWF t)
    (h : t.exit el = .ok t') : TreeWF t' := by
  obtain ⟨hsd, hpn, hpc, hap⟩ := hwf
  rw [RadixTree.exit] at h
  cases hc : t.current_path with
  | nil => rw [hc] at h; cases h
  | cons i p =>
    rw [hc] at h
    cases h
    refine ⟨siblingsDistinct_updateNodes hsd, ?_, ?_, ?_⟩
    · intro e' he'
      obtain ⟨e, he, hp⟩ := mem_updateNodes_path e' he'
      rw [hp]
      exact hpn e he
    · intro e' he'
      obtain ⟨e, he, hp⟩ := mem_updateNodes_path e' he'
      rcases hpc e he with h2 | ⟨e'', he'', hp''⟩
      · exact Or.inl (by rw [hp]; exact h2)
      · obtain ⟨e3, he3, hp3⟩ := mem_updateNodes_of_mem e'' he''
        exact Or.inr ⟨e3, he3, by rw [hp3, hp'', hp]⟩
    · intro k hk
      simp only at hk
      have hk' : k + 1 < t.current_path.length := by
        rw [hc]
        simpa using Nat.add_lt_add_right hk 1
      obtain ⟨e, he, hp⟩ := hap (k + 1) hk'
      obtain ⟨e', he', hp'⟩ := mem_updateNodes_of_mem e he
      refine ⟨e', he', ?_⟩
      rw [hp', hp, hc]
      simp

theorem rollback_wf {t : RadixTree} {t' : RadixTree} (hwf : TreeWF t)
    (h : t.rollback_one = .ok t') : TreeWF t' := by
  obtain ⟨hsd, hpn, hpc, hap⟩ := hwf
  rw [RadixTree.rollback_one] at h
  cases hc : t.current_path with
  | nil => rw [hc] at h; cases h
  | cons i p =>
    rw [hc] at h
    dsimp only at h
    have hapP : ∀ k < p.length, ∃ e ∈ t.nodes, e.path = p.drop k := by
      intro k hk
      have hk' : k + 1 < t.current_path.length := by
        rw [hc]
        simpa using Nat.add_lt_add_right hk 1
      obtain ⟨e, he, hp⟩ := hap (k + 1) hk'
      exact ⟨e, he, by rw [hp, hc]; simp⟩
    by_cases hch : t.hasChildrenAt (i :: p) = true
    · rw [if_pos hch] at h
      cases h
      exact ⟨hsd, hpn, hpc, hapP⟩
    · have hch' : t.hasChildrenAt (i :: p) = false := by
        cases hb : t.hasChildrenAt (i :: p)
        · rfl
        · exact absurd hb hch
      rw [if_neg (by simp [hch'])] at h
      cases h
      have hnocld : ∀ e ∈ t.nodes, ¬(e.path ≠ [] ∧ e.path.tail = i :: p) :=
        childrenOfNodes_eq_nil_iff.mp ((hasChildrenAt_false_iff t _).mp hch')
      refine ⟨siblingsDistinct_filter _ hsd, ?_, ?_, ?_⟩
      · intro e he
        exact hpn e (List.mem_of_mem_filter he)
      · intro e he
        have he' : e ∈ t.nodes := List.mem_of_mem_filter he
        rcases hpc e he' with h2 | ⟨e'', he'', hp''⟩
        · exact Or.inl h2
        · have htl : e.path.tail ≠ i :: p := by
            intro hcontra
            exact hnocld e he' ⟨hpn e he', hcontra⟩
          refine Or.inr ⟨e'', List.mem_filter.mpr ⟨he'', ?_⟩, hp''⟩
          simp only [decide_eq_true_eq]
          rw [hp'']
          exact htl
      · intro k hk
        simp only at hk
        obtain ⟨e, he, hp⟩ := hapP k hk
        refine ⟨e, List.mem_filter.mpr ⟨he, ?_⟩, hp⟩
        simp only [decide_eq_true_eq]
        rw [hp]
        intro hcontra
        have h1 : (p.drop k).length = (i :: p).length := by rw [hcontra]
        simp only [List.length_drop, List.length_cons] at h1
        omega

def ProfilerWF (c : CallProfiler) : Prop := TreeWF c.m_radix_tree

theorem step_wf {c : CallProfiler} {op : ProfilerOp} {c' : CallProfiler}
    (h : c.step op = .ok c') (hwf : ProfilerWF c) : ProfilerWF c' := by
  cases op with
  | enter i =>
    obtain ⟨t', ht', hc'⟩ := exceptMap_ok h
    rw [hc']
    exact enter_wf hwf ht'
  | leave e =>
    rw [CallProfiler.step, CallProfiler.leave] at h
    by_cases hf : c.cancelling = true
    · rw [if_pos hf] at h
      obtain ⟨t', ht', hc'⟩ := exceptMap_ok h
      rw [hc']
      exact rollback_wf hwf ht'
    · rw [if_neg hf] at h
      obtain ⟨t', ht', hc'⟩ := exceptMap_ok h
      rw [hc']
      exact exit_wf hwf ht'
  | cancel =>
    cases h
    exact hwf
  | reset =>
    cases h
    exact treeWF_init

theorem runOps_wf : ∀ (ops : List ProfilerOp) (c c' : CallProfiler),
    runOps c ops = .ok c' → ProfilerWF c → ProfilerWF c' := by
  intro ops
  induction ops with
  | nil =>
    intro c c' h hwf
    cases h
    exact hwf
  | cons op ops ih =>
    intro c c' h hwf
    rw [runOps] at h
    cases hs : c.step op with
    | ok c1 =>
      rw [hs] at h
      exact ih c1 c' h (step_wf hs hwf)
    | error err =>
      rw [hs] at h
      cases h

theorem reachable_wf {ops : List ProfilerOp} {c : CallProfiler}
    (h : runOps CallProfiler.init ops = .ok c) : ProfilerWF c :=
  runOps_wf ops CallProfiler.init c h treeWF_init

theorem runOps_cons {c : CallProfiler} {op : ProfilerOp} {ops : List ProfilerOp}
    {c1 : CallProfiler} (h : c.step op = .ok c1) :
    runOps c (op :: ops) = runOps c1 ops := by
  rw [runOps, h]

theorem step_enter_present {c : CallProfiler} {i : String} {P : List String} (hi : i ≠ "")
    (hcp : c.m_radix_tree.current_path = P)
    (hne : nodesAt c.m_radix_tree.nodes (i :: P) ≠ []) :
    c.step (.enter i) =
      .ok ⟨⟨c.m_radix_tree.nodes, i :: P, c.m_radix_tree.next_id⟩, c.cancelling⟩ := by
  rw [CallProfiler.step, CallProfiler.enter, RadixTree.enter, if_neg hi, hcp]
  rw [if_pos (by rw [hasNodeAt_true_iff]; exact hne)]
  rfl

theorem step_enter_absent {c : CallProfiler} {i : String} {P : List String} (hi : i ≠ "")
    (hcp : c.m_radix_tree.current_path = P)
    (hab : nodesAt c.m_radix_tree.nodes (i :: P) = []) :
    c.step (.enter i) =
      .ok ⟨⟨c.m_radix_tree.nodes ++ [⟨i :: P, c.m_radix_tree.next_id, ⟨i, 0, 0⟩⟩],
        i :: P, c.m_radix_tree.next_id + 1⟩, c.cancelling⟩ := by
  rw [CallProfiler.step, CallProfiler.enter, RadixTree.enter, if_neg hi, hcp]
  rw [if_neg (by rw [hasNodeAt_true_iff]; simp [hab])]
  rfl

theorem step_leave_commit {c : CallProfiler} {e : Nat} {i : String} {P : List String}
    (hf : c.cancelling = false) (hcp : c.m_radix_tree.current_path = i :: P) :
    c.step (.leave e) =
      .ok ⟨⟨updateNodes c.m_radix_tree.nodes (i :: P) e, P, c.m_radix_tree.next_id⟩, false⟩ := by
  rw [CallProfiler.step, CallProfiler.leave, if_neg (by rw [hf]; simp)]
  rw [RadixTree.exit, hcp]
  rfl

theorem rounds_present (i : String) (hi : i ≠ "") :
    ∀ (es : List Nat) (c : CallProfiler) (P : List String) (en : CallNode),
    c.cancelling = false → c.m_radix_tree.current_path = P →
    nodesAt c.m_radix_tree.nodes (i :: P) = [en] →
    ∃ c' en', runOps c (callRounds i es) = .ok c' ∧ c'.cancelling = false ∧
      c'.m_radix_tree.current_path = P ∧
      nodesAt c'.m_radix_tree.nodes (i :: P) = [en'] ∧
      en'.data.caller_name = en.data.caller_name ∧
      en'.data.call_count = en.data.call_count + es.length ∧
      en'.data.total_time = en.data.total_time + es.sum := by
  intro es
  induction es with
  | nil =>
    intro c P en hf hcp hsing
    exact ⟨c, en, rfl, hf, hcp, hsing, rfl, by simp, by simp⟩
  | cons e es ih =>
    intro c P en hf hcp hsing
    have h1 := step_enter_present (c := c) hi hcp (by rw [hsing]; simp)
    have h2 : (⟨⟨c.m_radix_tree.nodes, i :: P, c.m_radix_tree.next_id⟩, c.cancelling⟩ :
        CallProfiler).step (.leave e) =
        .ok ⟨⟨updateNodes c.m_radix_tree.nodes (i :: P) e, P, c.m_radix_tree.next_id⟩, false⟩ :=
      step_leave_commit hf rfl
    have h3 : nodesAt (updateNodes c.m_radix_tree.nodes (i :: P) e) (i :: P) =
        [⟨en.path, en.id, commitProfile e en.data⟩] := by
      rw [nodesAt_updateNodes_self, hsing]
      rfl
    obtain ⟨c', en', hrun, hf', hcp', hsing', hname, hcnt, htot⟩ :=
      ih ⟨⟨updateNodes c.m_radix_tree.nodes (i :: P) e, P, c.m_radix_tree.next_id⟩, false⟩
        P ⟨en.path, en.id, commitProfile e en.data⟩ rfl rfl h3
    refine ⟨c', en', ?_, hf', hcp', hsing', ?_, ?_, ?_⟩
    · rw [callRounds, runOps_cons h1, runOps_cons h2]
      exact hrun
    · rw [hname]
      rfl
    · rw [hcnt]
      simp [commitProfile]
      omega
    · rw [htot]
      simp [commitProfile]
      omega

theorem rounds_absent (i : String) (hi : i ≠ "") (e : Nat) (es : List Nat)
    (c : CallProfiler) (P : List String)
    (hf : c.cancelling = false) (hcp : c.m_radix_tree.current_path = P)
    (hab : nodesAt c.m_radix_tree.nodes (i :: P) = []) :
    ∃ c' en', runOps c (callRounds i (e :: es)) = .ok c' ∧ c'.cancelling = false ∧
      c'.m_radix_tree.current_path = P ∧
      nodesAt c'.m_radix_tree.nodes (i :: P) = [en'] ∧
      en'.data.caller_name = i ∧
      en'.data.call_count = (e :: es).length ∧
      en'.data.total_time = (e :: es).sum := by
  have h1 := step_enter_absent (c := c) hi hcp hab
  have h2 : (⟨⟨c.m_radix_tree.nodes ++ [⟨i :: P, c.m_radix_tree.next_id, ⟨i, 0, 0⟩⟩],
      i :: P, c.m_radix_tree.next_id + 1⟩, c.cancelling⟩ : CallProfiler).step (.leave e) =
      .ok ⟨⟨updateNodes (c.m_radix_tree.nodes ++ [⟨i :: P, c.m_radix_tree.next_id, ⟨i, 0, 0⟩⟩])
        (i :: P) e, P, c.m_radix_tree.next_id + 1⟩, false⟩ := by
    rw [hf] at h1 ⊢
    exact step_leave_commit rfl rfl
  have h3 : nodesAt (updateNodes (c.m_radix_tree.nodes ++
      [⟨i :: P, c.m_radix_tree.next_id, ⟨i, 0, 0⟩⟩]) (i :: P) e) (i :: P) =
      [⟨i :: P, c.m_radix_tree.next_id, ⟨i, 1, e⟩⟩] := by
    rw [nodesAt_updateNodes_self, nodesAt_append, hab]
    simp [nodesAt, commitProfile]
  obtain ⟨c', en', hrun, hf', hcp', hsing', hname, hcnt, htot⟩ :=
    rounds_present i hi es
      ⟨⟨updateNodes (c.m_radix_tree.nodes ++ [⟨i :: P, c.m_radix_tree.next_id, ⟨i, 0, 0⟩⟩])
        (i :: P) e, P, c.m_radix_tree.next_id + 1⟩, false⟩
      P ⟨i :: P, c.m_radix_tree.next_id, ⟨i, 1, e⟩⟩ rfl rfl h3
  refine ⟨c', en', ?_, hf', hcp', hsing', by simpa using hname, ?_, ?_⟩
  · rw [callRounds, runOps_cons h1, runOps_cons h2]
    exact hrun
  · rw [hcnt]
    simp
    omega
  · rw [htot]
    simp

/-- C3: in every reachable tree state siblings have pairwise-distinct
identities (no two stored nodes share a call path, so at most one node sits at
any path), and N completed committed calls to a fresh identity at one call
path produce exactly one node there whose `call_count` equals N. -/
theorem c3_sibling_compression (ops : List ProfilerOp) (s : CallProfiler)
    (hreach : runOps CallProfiler.init ops = .ok s) :
    SiblingsDistinct s.m_radix_tree.nodes ∧
    (∀ p, (nodesAt s.m_radix_tree.nodes p).length ≤ 1) ∧
    (∀ (i : String) (e : Nat) (es : List Nat) (s' : CallProfiler), i ≠ "" →
      s.cancelling = false →
      nodesAt s.m_radix_tree.nodes (i :: s.m_radix_tree.current_path) = [] →
      runOps s (callRounds i (e :: es)) = .ok s' →
      ∃ en, nodesAt s'.m_radix_tree.nodes (i :: s.m_radix_tree.current_path) = [en] ∧
        en.data.call_count = (e :: es).length) := by
  have hwf := reachable_wf hreach
  refine ⟨hwf.1, fun p => nodesAt_length_le_one hwf.1 p, ?_⟩
  intro i e es s' hi hf hab hrun
  obtain ⟨c', en', hrun', hf', hcp', hsing', hname, hcnt, htot⟩ :=
    rounds_absent i hi e es s s.m_radix_tree.current_path hf rfl hab
  rw [hrun'] at hrun
  cases hrun
  exact ⟨en', hsing', hcnt⟩

/-- Witness for C3 at a concrete input. -/
theorem c3_sibling_compression_witness :
    SiblingsDistinct CallProfiler.init.m_radix_tree.nodes :=
  (c3_sibling_compression [] CallProfiler.init rfl).1

/-- C4: `exit(elapsed)` fails with `StackUnderflow` exactly when the cursor is
at root; otherwise it bumps the cursor node's `call_count` by one, adds
`elapsed` to its `total_time`, moves the cursor to the parent and touches no
other node; and N committed invocations of a fresh path leave its node with
`total_time` equal to the sum of the N inclusive durations. -/
theorem c4_exit_commit (t : RadixTree) (elapsed : Nat) :
    (t.current_path = [] → t.exit elapsed = .error .StackUnderflow) ∧
    (∀ i P, t.current_path = i :: P →
      ∃ t', t.exit elapsed = .ok t' ∧ t'.current_path = P ∧
        nodesAt t'.nodes (i :: P) = (nodesAt t.nodes (i :: P)).map
          (fun e => ⟨e.path, e.id, commitProfile elapsed e.data⟩) ∧
        (∀ q, q ≠ i :: P → nodesAt t'.nodes q = nodesAt t.nodes q)) ∧
    (∀ (c : CallProfiler) (i : String) (e : Nat) (es : List Nat) (s' : CallProfiler), i ≠ "" →
      c.cancelling = false →
      nodesAt c.m_radix_tree.nodes (i :: c.m_radix_tree.current_path) = [] →
      runOps c (callRounds i (e :: es)) = .ok s' →
      ∃ en, nodesAt s'.m_radix_tree.nodes (i :: c.m_radix_tree.current_path) = [en] ∧
        en.data.total_time = (e :: es).sum ∧ en.data.call_count = (e :: es).length) := by
  refine ⟨?_, ?_, ?_⟩
  · intro h
    rw [RadixTree.exit, h]
  · intro i P hcp
    refine ⟨⟨updateNodes t.nodes (i :: P) elapsed, P, t.next_id⟩, ?_, rfl, ?_, ?_⟩
    · rw [RadixTree.exit, hcp]
    · exact nodesAt_updateNodes_self t.nodes (i :: P) elapsed
    · intro q hq
      exact nodesAt_updateNodes_ne t.nodes elapsed hq
  · intro c i e es s' hi hf hab hrun
    obtain ⟨c', en', hrun', hf', hcp', hsing', hname, hcnt, htot⟩ :=
      rounds_absent i hi e es c c.m_radix_tree.current_path hf rfl hab
    rw [hrun'] at hrun
    cases hrun
    refine ⟨en', hsing', ?_, hcnt⟩
    rw [htot]

/-- Witness for C4 at a concrete input. -/
theorem c4_exit_commit_witness :
    RadixTree.init.exit 5 = .error .StackUnderflow :=
  (c4_exit_commit RadixTree.init 5).1 rfl

theorem updateNodes_append (l1 l2 : List CallNode) (p : List String) (el : Nat) :
    updateNodes (l1 ++ l2) p el = updateNodes l1 p el ++ updateNodes l2 p el := by
  rw [updateNodes, List.map_append]
  rfl

theorem updateNodes_eq_self {ns : List CallNode} {p : List String} {el : Nat}
    (h : ∀ e ∈ ns, e.path ≠ p) : updateNodes ns p el = ns := by
  rw [updateNodes]
  have h2 : ∀ e ∈ ns,
      (if e.path = p then (⟨e.path, e.id, commitProfile el e.data⟩ : CallNode) else e) = e :=
    fun e he => if_neg (h e he)
  rw [List.map_congr_left h2]
  exact List.map_id' ns

theorem frame_step {base : List CallNode} {c c' : CallProfiler} {op : ProfilerOp}
    (hop : AllowedFrameOp base op) (h : c.step op = .ok c') (hinv : FrameInv base c) :
    FrameInv base c' := by
  obtain ⟨⟨extra, hnodes, hfresh⟩, hcur⟩ := hinv
  cases op with
  | enter i =>
    obtain ⟨t', ht', hc'⟩ := exceptMap_ok h
    rw [RadixTree.enter] at ht'
    by_cases hi : i = ""
    · rw [if_pos hi] at ht'
      cases ht'
    rw [if_neg hi] at ht'
    have hcur' : ∀ j ∈ i :: c.m_radix_tree.current_path, FreshIdentity base j := by
      intro j hj
      rcases List.mem_cons.mp hj with h1 | h1
      · subst h1
        exact hop
      · exact hcur j h1
    by_cases hn : c.m_radix_tree.hasNodeAt (i :: c.m_radix_tree.current_path) = true
    · rw [if_pos hn] at ht'
      cases ht'
      subst hc'
      exact ⟨⟨extra, hnodes, hfresh⟩, hcur'⟩
    · rw [if_neg (by simp at hn ⊢; exact hn)] at ht'
      cases ht'
      subst hc'
      refine ⟨⟨extra ++ [⟨i :: c.m_radix_tree.current_path, c.m_radix_tree.next_id, ⟨i, 0, 0⟩⟩],
        ?_, ?_⟩, hcur'⟩
      · rw [hnodes, List.append_assoc]
      · intro e he
        rcases List.mem_append.mp he with h1 | h1
        · exact hfresh e h1
        · simp only [List.mem_singleton] at h1
          subst h1
          exact hcur'
  | leave e =>
    rw [CallProfiler.step, CallProfiler.leave] at h
    by_cases hf : c.cancelling = true
    · rw [if_pos hf] at h
      obtain ⟨t', ht', hc'⟩ := exceptMap_ok h
      rw [RadixTree.rollback_one] at ht'
      cases hcp : c.m_radix_tree.current_path with
      | nil =>
        rw [hcp] at ht'
        cases ht'
      | cons j P =>
        rw [hcp] at ht'
        dsimp only at ht'
        have hbase_ne : ∀ b ∈ base, b.path ≠ j :: P := by
          intro b hb hcontra
          have hjmem : j ∈ b.path := by rw [hcontra]; simp
          exact (hcur j (by rw [hcp]; simp)) b hb hjmem
        have hcurP : ∀ x ∈ P, FreshIdentity base x := by
          intro x hx
          exact hcur x (by rw [hcp]; simp [hx])
        by_cases hch : c.m_radix_tree.hasChildrenAt (j :: P) = true
        · rw [if_pos hch] at ht'
          cases ht'
          subst hc'
          exact ⟨⟨extra, hnodes, hfresh⟩, hcurP⟩
        · rw [if_neg (by simp at hch ⊢; exact hch)] at ht'
          cases ht'
          subst hc'
          refine ⟨⟨extra.filter (fun e => decide (e.path ≠ j :: P)), ?_, ?_⟩, hcurP⟩
          · dsimp only
            rw [hnodes, List.filter_append]
            congr 1
            apply List.filter_eq_self.mpr
            intro b hb
            simp only [decide_eq_true_eq]
            exact hbase_ne b hb
          · intro e he
            exact hfresh e (List.mem_of_mem_filter he)
    · rw [if_neg hf] at h
      obtain ⟨t', ht', hc'⟩ := exceptMap_ok h
      rw [RadixTree.exit] at ht'
      cases hcp : c.m_radix_tree.current_path with
      | nil =>
        rw [hcp] at ht'
        cases ht'
      | cons j P =>
        rw [hcp] at ht'
        cases ht'
        subst hc'
        have hbase_ne : ∀ b ∈ base, b.path ≠ j :: P := by
          intro b hb hcontra
          have hjmem : j ∈ b.path := by rw [hcontra]; simp
          exact (hcur j (by rw [hcp]; simp)) b hb hjmem
        have hcurP : ∀ x ∈ P, FreshIdentity base x := by
          intro x hx
          exact hcur x (by rw [hcp]; simp [hx])
        refine ⟨⟨updateNodes extra (j :: P) e, ?_, ?_⟩, hcurP⟩
        · dsimp only
          rw [hnodes, updateNodes_append, updateNodes_eq_self hbase_ne]
        · intro e' he'
          obtain ⟨e0, he0, hp0⟩ := mem_updateNodes_path e' he'
          rw [hp0]
          exact hfresh e0 he0
  | cancel =>
    cases h
    exact ⟨⟨extra, hnodes, hfresh⟩, hcur⟩
  | reset => exact absurd hop (fun hx => hx)

theorem frame_run {base : List CallNode} : ∀ (ops : List ProfilerOp) (c c' : CallProfiler),
    (∀ op ∈ ops, AllowedFrameOp base op) → runOps c ops = .ok c' →
    FrameInv base c → FrameInv base c' := by
  intro ops
  induction ops with
  | nil =>
    intro c c' _ h hinv
    cases h
    exact hinv
  | cons op ops ih =>
    intro c c' hall h hinv
    rw [runOps] at h
    cases hs : c.step op with
    | ok c1 =>
      rw [hs] at h
      exact ih c1 c' (fun x hx => hall x (List.mem_cons_of_mem _ hx)) h
        (frame_step (hall op (List.mem_cons_self _ _)) hs hinv)
    | error err =>
      rw [hs] at h
      cases h

theorem find_append_drop {α : Type} (q : α → Bool) (l₁ l₂ : List α)
    (h : ∀ a ∈ l₂, ¬ q a = true) : (l₁ ++ l₂).find? q = l₁.find? q := by
  induction l₁ with
  | nil =>
    rw [List.nil_append]
    rw [show ([] : List α).find? q = none from rfl]
    exact List.find?_eq_none.mpr h
  | cons a l ih =>
    rw [List.cons_append]
    by_cases hqa : q a = true
    · rw [List.find?_cons_of_pos _ hqa, List.find?_cons_of_pos _ hqa]
    · rw [List.find?_cons_of_neg _ hqa, List.find?_cons_of_neg _ hqa, ih]

/-- C10: profiling state is one shared accumulating store: from a quiescent
state whose nodes all lie below the root, later enter/leave/cancel activity on
identities fresh to the committed nodes only appends new nodes: the committed
nodes persist verbatim (every field, in place) as a prefix of the node list,
and every committed node keeps its children list, both of its `get_child`
lookups (by insertion-order index and by identity), and its reported self time
unchanged. -/
theorem c10_committed_frame (s : CallProfiler) (ops : List ProfilerOp) (s' : CallProfiler)
    (hq : s.m_radix_tree.current_path = [])
    (hpn : PathsNonempty s.m_radix_tree.nodes)
    (hops : ∀ op ∈ ops, AllowedFrameOp s.m_radix_tree.nodes op)
    (hrun : runOps s ops = .ok s') :
    s'.m_radix_tree.nodes.take s.m_radix_tree.nodes.length = s.m_radix_tree.nodes ∧
    (∀ e ∈ s.m_radix_tree.nodes,
      childrenOfNodes s'.m_radix_tree.nodes e.path =
        childrenOfNodes s.m_radix_tree.nodes e.path) ∧
    (∀ e ∈ s.m_radix_tree.nodes, ∀ key,
      s'.m_radix_tree.get_child e.path key = s.m_radix_tree.get_child e.path key) ∧
    (∀ e ∈ s.m_radix_tree.nodes,
      nodeSelfTime s'.m_radix_tree.nodes e = nodeSelfTime s.m_radix_tree.nodes e) := by
  have hinv : FrameInv s.m_radix_tree.nodes s := by
    refine ⟨⟨[], by simp, by simp⟩, ?_⟩
    rw [hq]
    simp
  obtain ⟨⟨extra, hnodes, hfresh⟩, _⟩ := frame_run ops s s' hops hrun hinv
  have hdisj : ∀ e ∈ s.m_radix_tree.nodes, ∀ e' ∈ extra, ∀ j ∈ e.path, j ∉ e'.path := by
    intro e he e' he' j hj hj'
    exact hfresh e' he' j hj' e he hj
  have hchextra : ∀ e ∈ s.m_radix_tree.nodes, childrenOfNodes extra e.path = [] := by
    intro e he
    rw [childrenOfNodes_eq_nil_iff]
    intro e' he' hcontra
    obtain ⟨hne', htl⟩ := hcontra
    have hhead : e.path.head (hpn e he) ∈ e.path := List.head_mem _
    have hmem : e.path.head (hpn e he) ∈ e'.path := by
      apply List.mem_of_mem_tail
      rw [htl]
      exact hhead
    exact hdisj e he e' he' _ hhead hmem
  have hch : ∀ e ∈ s.m_radix_tree.nodes,
      childrenOfNodes s'.m_radix_tree.nodes e.path =
        childrenOfNodes s.m_radix_tree.nodes e.path := by
    intro e he
    rw [hnodes, childrenOfNodes_append, hchextra e he, List.append_nil]
  have hgc : ∀ e ∈ s.m_radix_tree.nodes, ∀ key,
      s'.m_radix_tree.get_child e.path key = s.m_radix_tree.get_child e.path key := by
    intro e he key
    cases key with
    | index k =>
      rw [show s'.m_radix_tree.get_child e.path (.index k)
            = (childrenOfNodes s'.m_radix_tree.nodes e.path).get? k from rfl,
          show s.m_radix_tree.get_child e.path (.index k)
            = (childrenOfNodes s.m_radix_tree.nodes e.path).get? k from rfl,
          hch e he]
    | name i =>
      rw [show s'.m_radix_tree.get_child e.path (.name i)
            = s'.m_radix_tree.nodes.find? (fun x => decide (x.path = i :: e.path)) from rfl,
          show s.m_radix_tree.get_child e.path (.name i)
            = s.m_radix_tree.nodes.find? (fun x => decide (x.path = i :: e.path)) from rfl,
          hnodes]
      apply find_append_drop
      intro e' he' hdec
      have hp : e'.path = i :: e.path := of_decide_eq_true hdec
      have hhead : e.path.head (hpn e he) ∈ e.path := List.head_mem _
      have hmem : e.path.head (hpn e he) ∈ e'.path := by
        rw [hp]
        exact List.mem_cons_of_mem _ hhead
      exact hdisj e he e' he' _ hhead hmem
  have hself : ∀ e ∈ s.m_radix_tree.nodes,
      nodeSelfTime s'.m_radix_tree.nodes e = nodeSelfTime s.m_radix_tree.nodes e := by
    intro e he
    rw [nodeSelfTime, nodeSelfTime, childrenSum, childrenSum, hch e he]
  refine ⟨?_, hch, hgc, hself⟩
  rw [hnodes]
  exact List.take_left _ _

/-- Witness for C10 at a concrete input: after committing `f` once, a fresh
`g` call leaves the `f` node in place and its (empty) children list
unchanged. -/
theorem c10_committed_frame_witness :
    (⟨⟨[⟨["f"], 0, ⟨"f", 1, 5⟩⟩, ⟨["g"], 1, ⟨"g", 1, 3⟩⟩], [], 2⟩, false⟩ :
      CallProfiler).m_radix_tree.nodes.take 1 = [⟨["f"], 0, ⟨"f", 1, 5⟩⟩] ∧
    childrenOfNodes (⟨⟨[⟨["f"], 0, ⟨"f", 1, 5⟩⟩, ⟨["g"], 1, ⟨"g", 1, 3⟩⟩], [], 2⟩, false⟩ :
      CallProfiler).m_radix_tree.nodes ["f"] =
      childrenOfNodes (⟨⟨[⟨["f"], 0, ⟨"f", 1, 5⟩⟩], [], 1⟩, false⟩ :
      CallProfiler).m_radix_tree.nodes ["f"] :=
  ⟨(c10_committed_frame ⟨⟨[⟨["f"], 0, ⟨"f", 1, 5⟩⟩], [], 1⟩, false⟩
      [.enter "g", .leave 3]
      ⟨⟨[⟨["f"], 0, ⟨"f", 1, 5⟩⟩, ⟨["g"], 1, ⟨"g", 1, 3⟩⟩], [], 2⟩, false⟩
      rfl (by decide) (by decide) rfl).1,
   (c10_committed_frame ⟨⟨[⟨["f"], 0, ⟨"f", 1, 5⟩⟩], [], 1⟩, false⟩
      [.enter "g", .leave 3]
      ⟨⟨[⟨["f"], 0, ⟨"f", 1, 5⟩⟩, ⟨["g"], 1, ⟨"g", 1, 3⟩⟩], [], 2⟩, false⟩
      rfl (by decide) (by decide) rfl).2.1 ⟨["f"], 0, ⟨"f", 1, 5⟩⟩ (by decide)⟩

theorem getLast?_cons_ne {α : Type} (a : α) {l : List α} (h : l ≠ []) :
    (a :: l).getLast? = l.getLast? := by
  rcases List.eq_nil_or_concat l with rfl | ⟨q, b, rfl⟩
  · exact absurd rfl h
  · rw [List.concat_eq_append, show a :: (q ++ [b]) = (a :: q) ++ [b] from rfl,
      List.getLast?_concat, List.getLast?_concat]

theorem head?_take {α : Type} {d : Nat} (l : List α) (h : 1 ≤ d) :
    (l.take d).head? = l.head? := by
  cases d with
  | zero => exact absurd h (by simp)
  | succ d =>
    cases l with
    | nil => rfl
    | cons a l => rfl

theorem head?_append_left {α : Type} {l1 : List α} (l2 : List α) (h : l1 ≠ []) :
    (l1 ++ l2).head? = l1.head? := by
  cases l1 with
  | nil => exact absurd rfl h
  | cons a l => rfl

theorem chainEntryList_append (K L cur : List String) (n : Nat) :
    chainEntryList (K ++ L) cur n =
      chainEntryList K cur n ++ chainEntryList L (K.reverse ++ cur) (n + K.length) := by
  induction K generalizing cur n with
  | nil => simp [chainEntryList]
  | cons k K ih =>
    rw [List.cons_append, chainEntryList, chainEntryList, ih (k :: cur) (n + 1)]
    simp only [List.cons_append, List.reverse_cons, List.append_assoc, List.length_cons]
    have harith : n + 1 + K.length = n + (K.length + 1) := by omega
    rw [harith]
    simp

theorem chainEntryList_concat (K : List String) (b : String) (n : Nat) :
    chainEntryList (K ++ [b]) [] n =
      chainEntryList K [] n ++ [⟨b :: K.reverse, n + K.length, ⟨b, 0, 0⟩⟩] := by
  rw [chainEntryList_append]
  simp [chainEntryList]

theorem chainEntryList_path_shape : ∀ (L cur : List String) (n : Nat),
    ∀ e ∈ chainEntryList L cur n, ∃ q, q ≠ [] ∧ e.path = q ++ cur := by
  intro L
  induction L with
  | nil =>
    intro cur n e he
    cases he
  | cons i L ih =>
    intro cur n e he
    rw [chainEntryList] at he
    rcases List.mem_cons.mp he with h | h
    · subst h
      exact ⟨[i], by simp, rfl⟩
    · obtain ⟨q, hq, hp⟩ := ih (i :: cur) (n + 1) e h
      exact ⟨q ++ [i], by simp, by rw [hp]; simp⟩

theorem chainEntryList_path_length : ∀ (L cur : List String) (n : Nat),
    ∀ e ∈ chainEntryList L cur n, e.path.length ≤ cur.length + L.length := by
  intro L
  induction L with
  | nil =>
    intro cur n e he
    cases he
  | cons i L ih =>
    intro cur n e he
    rw [chainEntryList] at he
    rcases List.mem_cons.mp he with h | h
    · subst h
      simp only [List.length_cons]
      omega
    · have := ih (i :: cur) (n + 1) e h
      simp only [List.length_cons] at this ⊢
      omega

theorem chainEntryList_path_ends (r : String) (rest : List String) (n : Nat) :
    ∀ e ∈ chainEntryList (r :: rest) [] n, e.path.getLast? = some r := by
  intro e he
  rw [chainEntryList] at he
  rcases List.mem_cons.mp he with h | h
  · subst h
    rfl
  · obtain ⟨q, hq, hp⟩ := chainEntryList_path_shape rest [r] (n + 1) e h
    rw [hp, show q ++ [r] = q.concat r from (List.concat_eq_append q r).symm]
    rw [List.concat_eq_append, List.getLast?_concat]

theorem runOps_append (c : CallProfiler) (xs ys : List ProfilerOp) :
    runOps c (xs ++ ys) =
      match runOps c xs with
      | .ok c' => runOps c' ys
      | .error err => .error err := by
  induction xs generalizing c with
  | nil => rfl
  | cons op xs ih =>
    rw [List.cons_append, runOps, runOps]
    cases c.step op with
    | ok c1 => exact ih c1
    | error err => rfl

theorem tower_absent {base : List CallNode} {K : List String} {n : Nat} {r i : String}
    (hbase : ∀ e ∈ base, e.path.getLast? ≠ some r)
    (hlast : (i :: K.reverse).getLast? = some r) :
    nodesAt (base ++ chainEntryList K [] n) (i :: K.reverse) = [] := by
  rw [nodesAt_append]
  have h1 : nodesAt base (i :: K.reverse) = [] := by
    rw [nodesAt_eq_nil_iff]
    intro e he hcontra
    exact hbase e he (by rw [hcontra]; exact hlast)
  have h2 : nodesAt (chainEntryList K [] n) (i :: K.reverse) = [] := by
    rw [nodesAt_eq_nil_iff]
    intro e he hcontra
    have hlen := chainEntryList_path_length K [] n e he
    rw [hcontra] at hlen
    simp at hlen
  rw [h1, h2]
  rfl

theorem tower_childless {base : List CallNode} {K : List String} {n : Nat} {r : String}
    (hbase : ∀ e ∈ base, e.path.getLast? ≠ some r)
    (hK : K ≠ []) (hKr : K.head? = some r) :
    childrenOfNodes (base ++ chainEntryList K [] n) K.reverse = [] := by
  have hrev : K.reverse ≠ [] := by simp [hK]
  have hrevlast : K.reverse.getLast? = some r := by
    rw [List.getLast?_reverse]
    exact hKr
  rw [childrenOfNodes_eq_nil_iff]
  intro e he ⟨hne, htl⟩
  have hshape : e.path = e.path.head hne :: K.reverse := by
    rw [← htl]
    exact (List.head_cons_tail e.path hne).symm
  rcases List.mem_append.mp he with h1 | h1
  · apply hbase e h1
    rw [hshape, getLast?_cons_ne _ hrev]
    exact hrevlast
  · have hlen := chainEntryList_path_length K [] n e h1
    rw [hshape] at hlen
    simp at hlen

theorem enters_tower (r : String) :
    ∀ (L K : List String) (base : List CallNode) (n : Nat) (flag : Bool),
    (∀ i ∈ L, i ≠ "") →
    (∀ e ∈ base, e.path.getLast? ≠ some r) →
    (K ++ L).head? = some r →
    runOps (towerState base K n (n + K.length) flag) (entersOps L) =
      .ok (towerState base (K ++ L) n (n + K.length + L.length) flag) := by
  intro L
  induction L with
  | nil =>
    intro K base n flag _ _ _
    simp [entersOps, runOps]
  | cons i L ih =>
    intro K base n flag hids hbase hhead
    have hlast : (i :: K.reverse).getLast? = some r := by
      cases K with
      | nil =>
        have hir : i = r := by simpa using hhead
        simp [hir]
      | cons k K' =>
        rw [getLast?_cons_ne _ (by simp), List.getLast?_reverse]
        simpa using hhead
    have habs : nodesAt (base ++ chainEntryList K [] n) (i :: K.reverse) = [] :=
      tower_absent hbase hlast
    have hstep := step_enter_absent (c := towerState base K n (n + K.length) flag)
      (hids i (by simp)) (rfl) habs
    rw [entersOps, List.map_cons, runOps_cons hstep]
    have hnext : (⟨⟨(base ++ chainEntryList K [] n) ++
        [⟨i :: K.reverse, n + K.length, ⟨i, 0, 0⟩⟩], i :: K.reverse,
        n + K.length + 1⟩, flag⟩ : CallProfiler) =
        towerState base (K ++ [i]) n (n + (K ++ [i]).length) flag := by
      rw [towerState, chainEntryList_concat]
      simp only [List.append_assoc, List.reverse_append, List.reverse_cons,
        List.reverse_nil, List.nil_append, List.cons_append, List.length_append,
        List.length_cons, List.length_nil]
      congr 1
    have hmain := ih (K ++ [i]) base n flag (fun x hx => hids x (by simp [hx])) hbase
      (by rw [List.append_assoc]; simpa using hhead)
    have heq1 : (K ++ [i]) ++ L = K ++ i :: L := by simp
    have heq2 : n + (K ++ [i]).length + L.length = n + K.length + (i :: L).length := by
      simp
      omega
    rw [heq1, heq2] at hmain
    rw [← hnext] at hmain
    exact hmain

theorem cons_reverse_getLast {K xs : List String} {x r : String}
    (hhead : (K ++ x :: xs).head? = some r) : (x :: K.reverse).getLast? = some r := by
  cases K with
  | nil =>
    have hxr : x = r := by simpa using hhead
    simp [hxr]
  | cons k K' =>
    rw [getLast?_cons_ne _ (by simp), List.getLast?_reverse]
    simpa using hhead

theorem leave_cancelling_step (tr : RadixTree) (el : Nat) :
    (⟨tr, true⟩ : CallProfiler).step (.leave el) =
      (tr.rollback_one).map (fun t => ⟨t, decide (t.current_path ≠ [])⟩) := rfl

theorem rollback_cons (ns : List CallNode) (i : String) (P : List String) (m : Nat) :
    RadixTree.rollback_one ⟨ns, i :: P, m⟩ =
      if (⟨ns, i :: P, m⟩ : RadixTree).hasChildrenAt (i :: P) then
        .ok ⟨ns, P, m⟩
      else
        .ok ⟨ns.filter (fun e => decide (e.path ≠ i :: P)), P, m⟩ := rfl

theorem tower_step_leave (r : String) {K : List String} {b : String} {base : List CallNode}
    {n m : Nat} (el : Nat)
    (hbase : ∀ e ∈ base, e.path.getLast? ≠ some r)
    (hhead : (K ++ [b]).head? = some r) :
    (towerState base (K ++ [b]) n m true).step (.leave el) =
      .ok (towerState base K n m (decide (K.reverse ≠ []))) := by
  have hcurlast : (b :: K.reverse).getLast? = some r := cons_reverse_getLast hhead
  have hstate : towerState base (K ++ [b]) n m true =
      ⟨⟨base ++ (chainEntryList K [] n ++ [⟨b :: K.reverse, n + K.length, ⟨b, 0, 0⟩⟩]),
        b :: K.reverse, m⟩, true⟩ := by
    rw [towerState, chainEntryList_concat]
    simp
  have hchildren : childrenOfNodes
      (base ++ (chainEntryList K [] n ++ [⟨b :: K.reverse, n + K.length, ⟨b, 0, 0⟩⟩]))
      (b :: K.reverse) = [] := by
    have h1 := @tower_childless base (K ++ [b]) n r hbase
      (by simp) (by simpa using hhead)
    rw [chainEntryList_concat] at h1
    have h2 : (K ++ [b]).reverse = b :: K.reverse := by simp
    rw [h2] at h1
    exact h1
  rw [hstate, leave_cancelling_step, rollback_cons]
  rw [if_neg (by
    rw [RadixTree.hasChildrenAt]
    dsimp only
    rw [hchildren]
    simp)]
  have hfilter : List.filter (fun e => decide (e.path ≠ b :: K.reverse))
      (base ++ (chainEntryList K [] n ++
        ([⟨b :: K.reverse, n + K.length, ⟨b, 0, 0⟩⟩] : List CallNode))) =
      base ++ chainEntryList K [] n := by
    rw [List.filter_append, List.filter_append]
    have hb : base.filter (fun e => decide (e.path ≠ b :: K.reverse)) = base := by
      apply List.filter_eq_self.mpr
      intro e he
      simp only [decide_eq_true_eq]
      intro hcontra
      exact hbase e he (by rw [hcontra]; exact hcurlast)
    have hk : (chainEntryList K [] n).filter
        (fun e => decide (e.path ≠ b :: K.reverse)) = chainEntryList K [] n := by
      apply List.filter_eq_self.mpr
      intro e he
      simp only [decide_eq_true_eq]
      intro hcontra
      have hlen := chainEntryList_path_length K [] n e he
      rw [hcontra] at hlen
      simp at hlen
    have hl : List.filter (fun e => decide (e.path ≠ b :: K.reverse))
        ([⟨b :: K.reverse, n + K.length, ⟨b, 0, 0⟩⟩] : List CallNode) = [] := by
      simp
    rw [hb, hk, hl, List.append_nil]
  rw [hfilter]
  rw [towerState]
  rfl

theorem tower_unwind_partial (r : String) :
    ∀ (es : List Nat) (K : List String) (base : List CallNode) (n m : Nat),
    es.length ≤ K.length → K ≠ [] → K.head? = some r →
    (∀ e ∈ base, e.path.getLast? ≠ some r) →
    runOps (towerState base K n m true) (leavesOps es) =
      .ok (towerState base (K.take (K.length - es.length)) n m
        (decide (K.length - es.length ≠ 0))) := by
  intro es
  induction es with
  | nil =>
    intro K base n m _ hK _ _
    simp only [List.length_nil, leavesOps, List.map_nil]
    have h1 : K.take (K.length - 0) = K := by simp
    have h2 : decide (K.length - 0 ≠ 0) = true := by
      simp only [Nat.sub_zero, ne_eq, decide_not]
      simp [List.length_eq_zero, hK]
    rw [h1, h2]
    rfl
  | cons el es ih =>
    intro K base n m hlen hK hKr hbase
    rcases List.eq_nil_or_concat K with rfl | ⟨K', b, rfl⟩
    · exact absurd rfl hK
    rw [List.concat_eq_append] at *
    have hstep := tower_step_leave (n := n) (m := m) r el hbase hKr
    rw [leavesOps, List.map_cons, runOps_cons hstep]
    by_cases hK' : K' = []
    · subst hK'
      have hes : es = [] := by
        rw [← List.length_eq_zero]
        simp only [List.length_cons, List.length_append, List.length_nil] at hlen
        omega
      subst hes
      simp [leavesOps, runOps, towerState, chainEntryList]
    · have hflag : decide (K'.reverse ≠ []) = true := by simp [hK']
      rw [hflag]
      have hmain := ih K' base n m
        (by simp at hlen ⊢; omega) hK'
        (by rw [head?_append_left [b] hK'] at hKr; exact hKr) hbase
      rw [leavesOps] at hmain
      rw [hmain]
      have h1 : K'.take (K'.length - es.length) =
          (K' ++ [b]).take ((K' ++ [b]).length - (el :: es).length) := by
        rw [List.length_append, List.length_cons]
        simp only [List.length_cons, List.length_nil]
        have harith : K'.length + 1 - (es.length + 1) = K'.length - es.length := by omega
        rw [harith]
        rw [List.take_append_of_le_length (by omega)]
      have h2 : decide (K'.length - es.length ≠ 0) =
          decide ((K' ++ [b]).length - (el :: es).length ≠ 0) := by
        simp only [List.length_append, List.length_cons, List.length_nil]
        have harith : K'.length + 1 - (es.length + 1) = K'.length - es.length := by omega
        rw [harith]
      rw [h1, h2]

theorem ancestor_unit {ns : List CallNode} (hpc : ParentClosed ns) (hpn : PathsNonempty ns) :
    ∀ (p : List String) (e : CallNode), e ∈ ns → e.path = p →
    ∃ l, p.getLast? = some l ∧ ∃ e' ∈ ns, e'.path = [l] := by
  intro p
  induction p with
  | nil =>
    intro e he hp
    exact absurd hp (hpn e he)
  | cons x rest ih =>
    intro e he hp
    rcases hpc e he with h1 | ⟨e', he', hp'⟩
    · have hr0 : rest = [] := by
        rw [hp] at h1
        simpa using h1
      subst hr0
      exact ⟨x, rfl, e, he, hp⟩
    · have htail : e.path.tail = rest := by rw [hp]; rfl
      rw [htail] at hp'
      have hrne : rest ≠ [] := by
        intro hc
        rw [hc] at hp'
        exact hpn e' he' hp'
      obtain ⟨l, hl, e'', he'', hp''⟩ := ih e' he' hp'
      refine ⟨l, ?_, e'', he'', hp''⟩
      rw [getLast?_cons_ne x hrne]
      exact hl

theorem fresh_root_no_getLast {ns : List CallNode} (hpc : ParentClosed ns)
    (hpn : PathsNonempty ns) {r : String} (hfresh : nodesAt ns [r] = []) :
    ∀ e ∈ ns, e.path.getLast? ≠ some r := by
  intro e he hcontra
  obtain ⟨l, hl, e', he', hp'⟩ := ancestor_unit hpc hpn e.path e he rfl
  rw [hl] at hcontra
  injection hcontra with hlr
  subst hlr
  exact (nodesAt_eq_nil_iff.mp hfresh) e' he' hp'

theorem cancel_tower_step (base : List CallNode) (K : List String) (n m : Nat) :
    (towerState base K n m false).step .cancel = .ok (towerState base K n m true) := rfl

theorem runOps_append_ok {c c1 : CallProfiler} {xs : List ProfilerOp} (ys : List ProfilerOp)
    (h : runOps c xs = .ok c1) : runOps c (xs ++ ys) = runOps c1 ys := by
  rw [runOps_append, h]

theorem chain_to_tower (r : String) (rest : List String) (d : Nat)
    (B : List CallNode) (N : Nat) (s : CallProfiler)
    (hs0 : s = towerState B [] N N false)
    (hne : ∀ i ∈ r :: rest, i ≠ "")
    (hbase : ∀ e ∈ B, e.path.getLast? ≠ some r)
    (hd1 : 1 ≤ d) :
    runOps s (entersOps ((r :: rest).take d) ++
        ProfilerOp.cancel :: entersOps ((r :: rest).drop d)) =
      .ok (towerState B (r :: rest) N (N + (r :: rest).length) true) := by
  subst hs0
  have e1 : runOps (towerState B [] N N false) (entersOps ((r :: rest).take d)) =
      .ok (towerState B ((r :: rest).take d) N (N + ((r :: rest).take d).length) false) := by
    have := enters_tower r ((r :: rest).take d) [] B N false
      (fun x hx => hne x (List.take_subset d (r :: rest) hx)) hbase
      (by rw [List.nil_append, head?_take (r :: rest) hd1]; rfl)
    simpa using this
  rw [runOps_append_ok _ e1, runOps_cons (cancel_tower_step B ((r :: rest).take d) N _)]
  have e3 := enters_tower r ((r :: rest).drop d) ((r :: rest).take d) B N true
    (fun x hx => hne x (List.drop_subset d (r :: rest) hx)) hbase
    (by rw [List.take_append_drop]; rfl)
  rw [show N + ((r :: rest).take d).length + ((r :: rest).drop d).length =
      N + (r :: rest).length from by
    have hld := congrArg List.length (List.take_append_drop d (r :: rest))
    rw [List.length_append] at hld
    omega] at e3
  rw [List.take_append_drop] at e3
  exact e3

theorem profiler_eq_tower (s : CallProfiler) (hq : s.m_radix_tree.current_path = [])
    (hnc : s.cancelling = false) :
    s = towerState s.m_radix_tree.nodes [] s.m_radix_tree.next_id
      s.m_radix_tree.next_id false := by
  cases s with
  | mk tr fl =>
    cases tr with
    | mk nds cp ni =>
      dsimp only at hq hnc
      subst hq
      subst hnc
      simp [towerState, chainEntryList]

/-- C1 counterexample: from a quiescent tree holding one committed node for
`f` (live count 1), the chain enter `f`; cancel; leave — an active nested
chain of depth 1 with `cancel()` inside — finalizes with live count 0, not the
pre-chain value 1: the rollback freed the previously committed node. -/
theorem c1_counterexample_revisit :
    (runOps CallProfiler.init [.enter "f", .leave 5]).map (fun c =>
      (c.m_radix_tree.live_node_count, c.m_radix_tree.current_path, c.cancelling)) =
      .ok (1, [], false) ∧
    (runOps CallProfiler.init [.enter "f", .leave 5, .enter "f", .cancel, .leave 3]).map
      (fun c => c.m_radix_tree.live_node_count) = .ok 0 := ⟨rfl, rfl⟩

/-- C1 (amended): starting from a quiescent, non-cancelling reachable state in
which the chain's first identity is not an existing child of root (the chain
creates only fresh nodes), entering D nested scopes with `cancel()` issued at
any depth d inside the chain and then finalizing all D scopes brings
`live_node_count()` back to its pre-chain value, with the cursor at root and
the cancelling flag clear; in particular two fresh scopes, cancel and two
finalizations leave the live count at 0. -/
theorem c1_cancellation_rollback (ops : List ProfilerOp) (s : CallProfiler)
    (r : String) (rest : List String) (d : Nat) (es : List Nat)
    (hreach : runOps CallProfiler.init ops = .ok s)
    (hq : s.m_radix_tree.current_path = [])
    (hnc : s.cancelling = false)
    (hne : ∀ i ∈ r :: rest, i ≠ "")
    (hfresh : nodesAt s.m_radix_tree.nodes [r] = [])
    (hd1 : 1 ≤ d)
    (hlen : es.length = (r :: rest).length) :
    (runOps s (chainOps (r :: rest) d es)).map (fun c =>
      (c.m_radix_tree.live_node_count, c.m_radix_tree.current_path, c.cancelling)) =
      .ok (s.m_radix_tree.live_node_count, [], false) := by
  have hwf := reachable_wf hreach
  have hbase := fresh_root_no_getLast hwf.2.2.1 hwf.2.1 hfresh
  have hsplit : chainOps (r :: rest) d es =
      (entersOps ((r :: rest).take d) ++ ProfilerOp.cancel ::
        entersOps ((r :: rest).drop d)) ++ leavesOps es := by
    simp [chainOps]
  rw [hsplit]
  have htower := chain_to_tower r rest d s.m_radix_tree.nodes s.m_radix_tree.next_id s
    (profiler_eq_tower s hq hnc) hne hbase hd1
  rw [runOps_append_ok _ htower]
  have hun := tower_unwind_partial r es (r :: rest) s.m_radix_tree.nodes
    s.m_radix_tree.next_id (s.m_radix_tree.next_id + (r :: rest).length)
    (by omega) (by simp) rfl hbase
  have h0 : (r :: rest).length - es.length = 0 := by omega
  rw [h0, List.take_zero] at hun
  rw [show (decide ((0 : Nat) ≠ 0)) = false from rfl] at hun
  rw [hun]
  simp [towerState, chainEntryList, RadixTree.live_node_count, Except.map]

/-- Witness for C1 at a concrete input: one fresh scope, cancel, finalize. -/
theorem c1_cancellation_rollback_witness :
    (runOps CallProfiler.init (chainOps ["f"] 1 [7])).map (fun c =>
      (c.m_radix_tree.live_node_count, c.m_radix_tree.current_path, c.cancelling)) =
      .ok (CallProfiler.init.m_radix_tree.live_node_count, [], false) :=
  c1_cancellation_rollback [] CallProfiler.init "f" [] 1 [7] rfl rfl rfl
    (by decide) rfl (by decide) rfl

/-- C7 counterexample: a reachable cancelling state (enter `f`; enter `g`;
commit `g`; cancel) in which the cursor node `f` — the node the next
`rollback_one()` acts on — has a child, so the detach-and-free branch does not
apply; the subsequent leave keeps both nodes alive. -/
theorem c7_counterexample_committed_child :
    (runOps CallProfiler.init [.enter "f", .enter "g", .leave 5, .cancel]).map (fun c =>
      (c.cancelling, c.m_radix_tree.current_path,
        c.m_radix_tree.hasChildrenAt c.m_radix_tree.current_path)) =
      .ok (true, ["f"], true) ∧
    (runOps CallProfiler.init [.enter "f", .enter "g", .leave 5, .cancel, .leave 9]).map
      (fun c => c.m_radix_tree.live_node_count) = .ok 2 := ⟨rfl, rfl⟩

/-- C7 (amended): during cancellation unwinding of a chain whose first
identity was fresh at root and in which `cancel()` preceded every leave, the
state reached after any proper prefix of the finalizing leaves is still
cancelling, its cursor is off root, and the cursor node is childless — so
every `rollback_one()` of the unwind takes the detach-and-free branch. -/
theorem c7_rollback_childless (ops : List ProfilerOp) (s : CallProfiler)
    (r : String) (rest : List String) (d : Nat) (es : List Nat)
    (hreach : runOps CallProfiler.init ops = .ok s)
    (hq : s.m_radix_tree.current_path = [])
    (hnc : s.cancelling = false)
    (hne : ∀ i ∈ r :: rest, i ≠ "")
    (hfresh : nodesAt s.m_radix_tree.nodes [r] = [])
    (hd1 : 1 ≤ d)
    (hj : es.length < (r :: rest).length) :
    (runOps s ((entersOps ((r :: rest).take d) ++ ProfilerOp.cancel ::
        entersOps ((r :: rest).drop d)) ++ leavesOps es)).map (fun c =>
      (c.cancelling, decide (c.m_radix_tree.current_path ≠ []),
        c.m_radix_tree.hasChildrenAt c.m_radix_tree.current_path)) =
      .ok (true, true, false) := by
  have hwf := reachable_wf hreach
  have hbase := fresh_root_no_getLast hwf.2.2.1 hwf.2.1 hfresh
  have htower := chain_to_tower r rest d s.m_radix_tree.nodes s.m_radix_tree.next_id s
    (profiler_eq_tower s hq hnc) hne hbase hd1
  rw [runOps_append_ok _ htower]
  have hun := tower_unwind_partial r es (r :: rest) s.m_radix_tree.nodes
    s.m_radix_tree.next_id (s.m_radix_tree.next_id + (r :: rest).length)
    (by omega) (by simp) rfl hbase
  rw [hun]
  have hkpos : (r :: rest).length - es.length ≠ 0 := by omega
  have hKne : (r :: rest).take ((r :: rest).length - es.length) ≠ [] := by
    cases hk : (r :: rest).length - es.length with
    | zero => exact absurd hk hkpos
    | succ k' => simp [List.take]
  have hKhead : ((r :: rest).take ((r :: rest).length - es.length)).head? = some r := by
    rw [head?_take (r :: rest) (by omega)]
    rfl
  have hchildless := @tower_childless s.m_radix_tree.nodes
    ((r :: rest).take ((r :: rest).length - es.length))
    s.m_radix_tree.next_id r hbase hKne hKhead
  simp only [Except.map, towerState]
  have hlenc : (r :: rest).length = rest.length + 1 := rfl
  have h1 : decide ((r :: rest).length - es.length ≠ 0) = true := by
    rw [decide_eq_true_eq]
    omega
  have h2 : decide (((r :: rest).take ((r :: rest).length - es.length)).reverse ≠
      ([] : List String)) = true := by
    rw [decide_eq_true_eq]
    simp only [ne_eq, List.reverse_eq_nil_iff]
    exact hKne
  rw [h1, h2]
  rw [show RadixTree.hasChildrenAt
      ⟨s.m_radix_tree.nodes ++ chainEntryList
        ((r :: rest).take ((r :: rest).length - es.length)) [] s.m_radix_tree.next_id,
        ((r :: rest).take ((r :: rest).length - es.length)).reverse,
        s.m_radix_tree.next_id + (r :: rest).length⟩
      ((r :: rest).take ((r :: rest).length - es.length)).reverse = false from by
    rw [RadixTree.hasChildrenAt]
    dsimp only
    rw [hchildless]
    rfl]

/-- Witness for C7 at a concrete input: two fresh scopes, cancel, one leave;
the remaining cursor node is childless. -/
theorem c7_rollback_childless_witness :
    (runOps CallProfiler.init ((entersOps (["f", "g"].take 2) ++ ProfilerOp.cancel ::
        entersOps (["f", "g"].drop 2)) ++ leavesOps [3])).map (fun c =>
      (c.cancelling, decide (c.m_radix_tree.current_path ≠ []),
        c.m_radix_tree.hasChildrenAt c.m_radix_tree.current_path)) =
      .ok (true, true, false) :=
  c7_rollback_childless [] CallProfiler.init "f" ["g"] 2 [3] rfl rfl rfl
    (by decide) rfl (by decide) (by decide)

theorem childrenSum_append (ns ms : List CallNode) (p : List String) :
    childrenSum (ns ++ ms) p = childrenSum ns p + childrenSum ms p := by
  rw [childrenSum, childrenOfNodes_append, List.map_append, List.sum_append]
  rfl

theorem childrenSum_cons (e : CallNode) (ns : List CallNode) (p : List String) :
    childrenSum (e :: ns) p =
      (if e.path ≠ [] ∧ e.path.tail = p then e.data.total_time else 0) +
        childrenSum ns p := by
  by_cases h : e.path ≠ [] ∧ e.path.tail = p
  · simp [childrenSum, childrenOfNodes, List.filter_cons, h]
  · simp [childrenSum, childrenOfNodes, List.filter_cons, h]

theorem childrenSum_nil (p : List String) : childrenSum [] p = 0 := rfl

theorem childrenSum_append_zero (ns : List CallNode) (e0 : CallNode)
    (h0 : e0.data.total_time = 0) (q : List String) :
    childrenSum (ns ++ [e0]) q = childrenSum ns q := by
  rw [childrenSum_append, childrenSum_cons, childrenSum_nil, h0]
  simp

theorem childrenSum_eq_zero_of_no_children {ns : List CallNode} {p : List String}
    (h : childrenOfNodes ns p = []) : childrenSum ns p = 0 := by
  rw [childrenSum, h]
  rfl

theorem childrenSum_update_eq (q p : List String) (el : Nat)
    (hnc : ¬(q ≠ [] ∧ q.tail = p)) :
    ∀ ns : List CallNode, childrenSum (updateNodes ns q el) p = childrenSum ns p := by
  intro ns
  induction ns with
  | nil => rfl
  | cons e ns ih =>
    have hstep : updateNodes (e :: ns) q el =
        (if e.path = q then (⟨e.path, e.id, commitProfile el e.data⟩ : CallNode) else e) ::
          updateNodes ns q el := rfl
    rw [hstep]
    by_cases hp : e.path = q
    · rw [if_pos hp, childrenSum_cons, childrenSum_cons, ih]
      have hcond : ¬(e.path ≠ [] ∧ e.path.tail = p) := by
        rw [hp]
        exact hnc
      rw [if_neg hcond, if_neg hcond]
    · rw [if_neg hp, childrenSum_cons, childrenSum_cons, ih]

theorem childrenSum_update_le (q p : List String) (el : Nat) :
    ∀ ns : List CallNode, SiblingsDistinct ns →
    childrenSum (updateNodes ns q el) p ≤ childrenSum ns p + el := by
  intro ns
  induction ns with
  | nil =>
    intro _
    simp [updateNodes, childrenSum, childrenOfNodes]
  | cons e ns ih =>
    intro hnd
    rw [SiblingsDistinct, pathsOf, List.map_cons, List.nodup_cons] at hnd
    have hnd' : SiblingsDistinct ns := hnd.2
    have hstep : updateNodes (e :: ns) q el =
        (if e.path = q then (⟨e.path, e.id, commitProfile el e.data⟩ : CallNode) else e) ::
          updateNodes ns q el := rfl
    rw [hstep]
    by_cases hp : e.path = q
    · rw [if_pos hp]
      have hrest : updateNodes ns q el = ns := by
        apply updateNodes_eq_self
        intro a ha hcontra
        apply hnd.1
        rw [hp]
        exact hcontra ▸ List.mem_map_of_mem (fun x => x.path) ha
      rw [hrest, childrenSum_cons, childrenSum_cons]
      by_cases hcond : e.path ≠ [] ∧ e.path.tail = p
      · rw [if_pos hcond, if_pos hcond]
        simp only [commitProfile]
        omega
      · rw [if_neg hcond, if_neg hcond]
        omega
    · rw [if_neg hp, childrenSum_cons, childrenSum_cons]
      have := ih hnd'
      omega

theorem isActiveSuffix_nil {q : List String} : ¬ IsActiveSuffix q [] := by
  rintro ⟨hne, k, hk⟩
  simp at hk
  exact hne hk

theorem isActiveSuffix_cons {q : List String} {i : String} {cur : List String} :
    IsActiveSuffix q (i :: cur) ↔ q = i :: cur ∨ IsActiveSuffix q cur := by
  constructor
  · rintro ⟨hne, k, hk⟩
    cases k with
    | zero => exact Or.inl (by simpa using hk)
    | succ k' => exact Or.inr ⟨hne, k', by simpa using hk⟩
  · rintro (rfl | ⟨hne, k, hk⟩)
    · exact ⟨by simp, 0, rfl⟩
    · exact ⟨hne, k + 1, by simpa using hk⟩

theorem ne_drop_of_length_gt {α : Type} {q l : List α} (h : l.length < q.length) (k : Nat) :
    q ≠ l.drop k := by
  intro hc
  have hlen := congrArg List.length hc
  rw [List.length_drop] at hlen
  omega

theorem mem_updateNodes_of_ne {ns : List CallNode} {q : List String} {el : Nat}
    {e' : CallNode} (h : e' ∈ updateNodes ns q el) (hne : e'.path ≠ q) : e' ∈ ns := by
  rw [updateNodes, List.mem_map] at h
  obtain ⟨e, he, heq⟩ := h
  by_cases hp : e.path = q
  · exfalso
    apply hne
    rw [← heq, if_pos hp]
    exact hp
  · rw [← heq, if_neg hp]
    exact he

theorem mem_updateNodes_left {ns : List CallNode} {q : List String} {el : Nat}
    {e : CallNode} (he : e ∈ ns) (hne : e.path ≠ q) : e ∈ updateNodes ns q el := by
  rw [updateNodes, List.mem_map]
  exact ⟨e, he, by rw [if_neg hne]⟩

theorem chainInv_mono (ns : List CallNode) :
    ∀ (cur : List String) (st : List Nat) (T T' : Nat),
    T ≤ T' → chainInv ns cur st T → chainInv ns cur st T' := by
  intro cur st T T' hT h
  cases cur with
  | nil =>
    cases st with
    | nil => exact trivial
    | cons τ st => exact h.elim
  | cons i p =>
    cases st with
    | nil => exact h.elim
    | cons τ st =>
      obtain ⟨hb, hle, hrest⟩ := h
      refine ⟨?_, le_trans hle hT, hrest⟩
      intro e he hp
      exact le_trans (hb e he hp)
        (Nat.add_le_add_left (Nat.sub_le_sub_right hT τ) _)

theorem chainInv_update_deep (q : List String) (el : Nat) (ns : List CallNode) :
    ∀ (cur : List String) (st : List Nat) (T : Nat),
    (∀ k, q ≠ cur.drop k) →
    (∀ k, ¬(q ≠ [] ∧ q.tail = cur.drop k)) →
    chainInv ns cur st T → chainInv (updateNodes ns q el) cur st T := by
  intro cur
  induction cur with
  | nil =>
    intro st T _ _ h
    cases st with
    | nil => exact trivial
    | cons τ st => exact h.elim
  | cons i p ih =>
    intro st T hlev hch h
    cases st with
    | nil => exact h.elim
    | cons τ st =>
      obtain ⟨hb, hle, hrest⟩ := h
      refine ⟨?_, hle, ?_⟩
      · intro e' he' hp'
        have hiq : i :: p ≠ q := fun hc => (hlev 0) (by rw [← hc]; rfl)
        have he : e' ∈ ns := mem_updateNodes_of_ne he' (by rw [hp']; exact hiq)
        rw [childrenSum_update_eq q (i :: p) el (hch 0) ns]
        exact hb e' he hp'
      · exact ih st τ (fun k => by simpa using hlev (k + 1))
          (fun k => by simpa using hch (k + 1)) hrest

theorem chainInv_append_zero (e0 : CallNode) (h0 : e0.data.total_time = 0)
    (ns : List CallNode) :
    ∀ (cur : List String) (st : List Nat) (T : Nat),
    (∀ k, e0.path ≠ cur.drop k) →
    chainInv ns cur st T → chainInv (ns ++ [e0]) cur st T := by
  intro cur
  induction cur with
  | nil =>
    intro st T _ h
    cases st with
    | nil => exact trivial
    | cons τ st => exact h.elim
  | cons i p ih =>
    intro st T hlev h
    cases st with
    | nil => exact h.elim
    | cons τ st =>
      obtain ⟨hb, hle, hrest⟩ := h
      refine ⟨?_, hle, ?_⟩
      · intro e' he' hp'
        rw [childrenSum_append_zero ns e0 h0]
        rcases List.mem_append.mp he' with h1 | h1
        · exact hb e' h1 hp'
        · exfalso
          simp only [List.mem_singleton] at h1
          subst h1
          exact (hlev 0) (by rw [hp']; rfl)
      · exact ih st τ (fun k => by simpa using hlev (k + 1)) hrest

theorem no_children_of_absent {ns : List CallNode} {p : List String}
    (hpc : ParentClosed ns) (habs : nodesAt ns p = []) (hne : p ≠ []) :
    childrenOfNodes ns p = [] := by
  rw [childrenOfNodes_eq_nil_iff]
  intro e he hcl
  rcases hpc e he with h1 | ⟨e', he', hp'⟩
  · exact hne (hcl.2.symm.trans h1)
  · rw [hcl.2] at hp'
    exact (nodesAt_eq_nil_iff.mp habs) e' he' hp'

theorem mem_updateNodes_at {ns : List CallNode} {q : List String} {el : Nat} {e' : CallNode}
    (h : e' ∈ updateNodes ns q el) (hp : e'.path = q) :
    ∃ e ∈ ns, e.path = q ∧ e' = ⟨e.path, e.id, commitProfile el e.data⟩ := by
  rw [updateNodes, List.mem_map] at h
  obtain ⟨e, he, heq⟩ := h
  by_cases hpq : e.path = q
  · exact ⟨e, he, hpq, by rw [← heq, if_pos hpq]⟩
  · exfalso
    apply hpq
    rw [← heq, if_neg hpq] at hp
    exact hp

theorem timedStep_inv {s s' : TimedState} {ev : TimedEvent}
    (hstep : timedStep s ev = .ok s') (hinv : TimedInv s ev.time) :
    TimedInv s' ev.time := by
  obtain ⟨hlen, hnd, hpn, hpc, hap, hoff, hchain⟩ := hinv
  cases ev with
  | enter i t =>
    obtain ⟨tr, htr, hs'⟩ := exceptMap_ok hstep
    subst hs'
    have hwf' := enter_wf ⟨hnd, hpn, hpc, hap⟩ htr
    rw [RadixTree.enter] at htr
    by_cases hi : i = ""
    · rw [if_pos hi] at htr
      cases htr
    rw [if_neg hi] at htr
    by_cases hn : s.tree.hasNodeAt (i :: s.tree.current_path) = true
    · rw [if_pos hn] at htr
      cases htr
      refine ⟨by simp [hlen], hwf'.1, hwf'.2.1, hwf'.2.2.1, hwf'.2.2.2, ?_, ?_⟩
      · intro e he hnotsuf
        have hns : ¬ IsActiveSuffix e.path s.tree.current_path := by
          intro hc
          exact hnotsuf (isActiveSuffix_cons.mpr (Or.inr hc))
        exact hoff e he hns
      · refine ⟨?_, le_refl t, hchain⟩
        intro e he hp
        have hns : ¬ IsActiveSuffix e.path s.tree.current_path := by
          rw [hp]
          rintro ⟨hne2, k, hk⟩
          have := congrArg List.length hk
          rw [List.length_drop] at this
          simp at this
          omega
        have hb := hoff e he hns
        rw [hp] at hb
        simp only [TimedEvent.time]
        omega
    · have hn' : s.tree.hasNodeAt (i :: s.tree.current_path) = false := by
        cases hb : s.tree.hasNodeAt (i :: s.tree.current_path)
        · rfl
        · exact absurd hb hn
      rw [if_neg (by simp [hn'])] at htr
      cases htr
      have habs : nodesAt s.tree.nodes (i :: s.tree.current_path) = [] :=
        (hasNodeAt_false_iff s.tree _).mp hn'
      refine ⟨by simp [hlen], hwf'.1, hwf'.2.1, hwf'.2.2.1, hwf'.2.2.2, ?_, ?_⟩
      · intro e he hnotsuf
        rcases List.mem_append.mp he with h1 | h1
        · have hns : ¬ IsActiveSuffix e.path s.tree.current_path := by
            intro hc
            exact hnotsuf (isActiveSuffix_cons.mpr (Or.inr hc))
          have hb := hoff e h1 hns
          rw [childrenSum_append_zero _ _ rfl]
          exact hb
        · exfalso
          simp only [List.mem_singleton] at h1
          subst h1
          exact hnotsuf (isActiveSuffix_cons.mpr (Or.inl rfl))
      · refine ⟨?_, le_refl t, ?_⟩
        · intro e he hp
          rw [childrenSum_append_zero _ _ rfl]
          rw [childrenSum_eq_zero_of_no_children
            (no_children_of_absent hpc habs (by simp))]
          exact Nat.zero_le _
        · refine chainInv_append_zero _ rfl s.tree.nodes s.tree.current_path s.starts t
            ?_ hchain
          intro k
          apply ne_drop_of_length_gt
          simp only [List.length_cons]
          have := List.length_drop k s.tree.current_path
          omega
  | leave t =>
    rw [timedStep] at hstep
    cases hst : s.starts with
    | nil =>
      rw [hst] at hstep
      cases hstep
    | cons τ st' =>
      rw [hst] at hstep
      obtain ⟨tr, htr, hs'⟩ := exceptMap_ok hstep
      subst hs'
      have hwf' := exit_wf ⟨hnd, hpn, hpc, hap⟩ htr
      rw [RadixTree.exit] at htr
      cases hcp : s.tree.current_path with
      | nil =>
        rw [hcp] at htr
        cases htr
      | cons j p0 =>
        rw [hcp] at htr
        cases htr
        rw [hcp, hst] at hchain
        rw [hcp, hst] at hlen
        simp only [List.length_cons, Nat.add_right_cancel_iff] at hlen
        obtain ⟨htop, hτt, hrest⟩ := hchain
        have hlenJP : ∀ k, (j :: p0) ≠ List.drop k p0 := by
          intro k
          apply ne_drop_of_length_gt
          simp only [List.length_cons]
          have := List.length_drop k p0
          omega
        refine ⟨by simpa using hlen, hwf'.1, hwf'.2.1, hwf'.2.2.1, hwf'.2.2.2, ?_, ?_⟩
        · intro e' he' hnotsuf
          by_cases hpq : e'.path = j :: p0
          · obtain ⟨e, he, hep, hee⟩ := mem_updateNodes_at he' hpq
            have hsum : childrenSum (updateNodes s.tree.nodes (j :: p0) (t - τ)) e'.path =
                childrenSum s.tree.nodes e'.path := by
              rw [hpq]
              apply childrenSum_update_eq
              rintro ⟨-, hc⟩
              have := congrArg List.length hc
              simp at this
            rw [hsum, hpq]
            have hb := htop e he hep
            simp only [TimedEvent.time] at hb
            rw [hee]
            simp only [commitProfile]
            omega
          · have he : e' ∈ s.tree.nodes := mem_updateNodes_of_ne he' hpq
            have hnp0 : e'.path ≠ p0 := by
              intro hc
              apply hnotsuf
              exact ⟨hpn e' he, 0, by simpa using hc⟩
            have hns : ¬ IsActiveSuffix e'.path s.tree.current_path := by
              rw [hcp]
              intro hc
              rcases isActiveSuffix_cons.mp hc with h1 | h1
              · exact hpq h1
              · exact hnotsuf h1
            have hb := hoff e' he hns
            have hsum : childrenSum (updateNodes s.tree.nodes (j :: p0) (t - τ)) e'.path =
                childrenSum s.tree.nodes e'.path := by
              apply childrenSum_update_eq
              rintro ⟨-, hc⟩
              exact hnp0 (by rw [← hc]; rfl)
            rw [hsum]
            exact hb
        · cases p0 with
          | nil =>
            cases st' with
            | nil => exact trivial
            | cons τ' st'' => simp at hlen
          | cons j0 p1 =>
            cases st' with
            | nil => simp at hlen
            | cons τ' st'' =>
              obtain ⟨hmid, hτ'τ, hdeep⟩ := hrest
              refine ⟨?_, le_trans hτ'τ hτt, ?_⟩
              · intro e' he' hp'
                have hpq : e'.path ≠ j :: j0 :: p1 := by
                  rw [hp']
                  intro hc
                  have := congrArg List.length hc
                  simp at this
                have he : e' ∈ s.tree.nodes := mem_updateNodes_of_ne he' hpq
                have hb := hmid e' he hp'
                simp only [TimedEvent.time] at hb hτt
                have hle := childrenSum_update_le (j :: j0 :: p1) (j0 :: p1) (t - τ)
                  s.tree.nodes hnd
                simp only [TimedEvent.time]
                omega
              · apply chainInv_update_deep (j :: j0 :: p1) (t - τ) s.tree.nodes p1 st'' τ'
                · intro k
                  apply ne_drop_of_length_gt
                  simp only [List.length_cons]
                  have := List.length_drop k p1
                  omega
                · rintro k ⟨-, hc⟩
                  have := congrArg List.length hc
                  rw [List.length_drop] at this
                  simp at this
                  omega
                · exact hdeep

theorem timedInv_init (t0 : Nat) : TimedInv ⟨RadixTree.init, []⟩ t0 := by
  refine ⟨rfl, treeWF_init.1, treeWF_init.2.1, treeWF_init.2.2.1, treeWF_init.2.2.2,
    ?_, trivial⟩
  intro e he
  cases he

theorem runTimed_inv : ∀ (evs : List TimedEvent) (s s' : TimedState) (t0 : Nat),
    timesMonoB t0 evs = true → TimedInv s t0 → runTimed s evs = .ok s' →
    ∃ tEnd, TimedInv s' tEnd := by
  intro evs
  induction evs with
  | nil =>
    intro s s' t0 _ hinv hrun
    cases hrun
    exact ⟨t0, hinv⟩
  | cons ev evs ih =>
    intro s s' t0 hmono hinv hrun
    rw [timesMonoB, Bool.and_eq_true, decide_eq_true_eq] at hmono
    rw [runTimed] at hrun
    cases hs1 : timedStep s ev with
    | ok s1 =>
      rw [hs1] at hrun
      have hinv1 : TimedInv s1 ev.time :=
        timedStep_inv hs1 (by
          obtain ⟨h1, h2, h3, h4, h5, h6, h7⟩ := hinv
          exact ⟨h1, h2, h3, h4, h5, h6,
            chainInv_mono _ _ _ _ _ hmono.1 h7⟩)
      exact ih s1 s' ev.time hmono.2 hinv1 hrun
    | error err =>
      rw [hs1] at hrun
      cases hrun

/-- C6 (amended): for every node of a quiescent tree built by a session of
properly nested timed scope guards with monotone timestamps in which
`cancel()` is never invoked, the self time computed by the statistics
reporter — total time minus the sum of the children's total times — is
non-negative.  Over all quiescent fully committed trees the bound fails once
cancellation has occurred in the history, because a cancelling `leave`
discards the parent's in-flight span while a committed child survives the
rollback; hence the restriction to cancel-free sessions, reflected in the
`TimedEvent` alphabet having no cancel action. -/
theorem c6_self_time_nonneg (evs : List TimedEvent) (t0 : Nat) (s' : TimedState)
    (hmono : timesMonoB t0 evs = true)
    (hrun : runTimed ⟨RadixTree.init, []⟩ evs = .ok s')
    (hquiet : s'.tree.current_path = []) :
    ∀ e ∈ s'.tree.nodes, 0 ≤ nodeSelfTime s'.tree.nodes e := by
  obtain ⟨tEnd, hinv⟩ := runTimed_inv evs ⟨RadixTree.init, []⟩ s' t0 hmono
    (timedInv_init t0) hrun
  intro e he
  have hoff := hinv.off_chain e he (by rw [hquiet]; exact isActiveSuffix_nil)
  rw [nodeSelfTime]
  omega

/-- Witness for C6 at a concrete input: guard `f` from time 0 to 9 around
guard `g` from time 1 to 5. -/
theorem c6_self_time_nonneg_witness :
    0 ≤ nodeSelfTime [⟨["f"], 0, ⟨"f", 1, 9⟩⟩, ⟨["g", "f"], 1, ⟨"g", 1, 4⟩⟩]
      ⟨["f"], 0, ⟨"f", 1, 9⟩⟩ :=
  c6_self_time_nonneg [.enter "f" 0, .enter "g" 1, .leave 5, .leave 9] 0
    ⟨⟨[⟨["f"], 0, ⟨"f", 1, 9⟩⟩, ⟨["g", "f"], 1, ⟨"g", 1, 4⟩⟩], [], 2⟩, []⟩
    (by decide) rfl rfl ⟨["f"], 0, ⟨"f", 1, 9⟩⟩ (by decide)

/-- Counterexample to C6 as stated: the profiler run `enter f; enter g;
leave 4; cancel; leave; enter f; leave 1` ends quiescent and non-cancelling
with every node committed — `f` has call count 1 and total time 1, its child
`g` has call count 1 and total time 4 — yet the reporter's self time of `f`
is 1 - 4 = -3 < 0: the cancelling `leave` discarded the first in-flight span
of `f` while its committed child `g` survived the rollback (the cursor node
had a child, so `rollback_one` freed nothing). -/
theorem c6_counterexample_cancel_history :
    (runOps CallProfiler.init
      [.enter "f", .enter "g", .leave 4, .cancel, .leave 9, .enter "f", .leave 1]).map
      (fun c => (c.m_radix_tree.current_path, c.cancelling,
        c.m_radix_tree.nodes.map (fun e => (e.path, e.data.call_count, e.data.total_time)),
        c.m_radix_tree.nodes.map (fun e => nodeSelfTime c.m_radix_tree.nodes e))) =
      .ok ([], false, [(["f"], 1, 1), (["g", "f"], 1, 4)], [-3, 4]) ∧
    nodeSelfTime [⟨["f"], 0, ⟨"f", 1, 1⟩⟩, ⟨["g", "f"], 1, ⟨"g", 1, 4⟩⟩]
      ⟨["f"], 0, ⟨"f", 1, 1⟩⟩ < 0 :=
  ⟨rfl, by decide⟩
